import Mathlib

/-!
Verification of the BML markup library (`src/lib.rs`): node model, tree
builder, serializer, and a parse-event source modelled from the
specification (the grammar file itself is not part of the sources).

Text is embedded as `List Char`; Rust `String`/`SmallString` values are
their character sequences.
-/

/-- Character sequences, the embedding of Rust string types. -/
abbrev Text := List Char

/-- Split a character sequence at every newline; the segment after the last
newline is kept (possibly empty), mirroring an inclusive split. -/
def splitNlCore : Text → List Text
  | [] => [[]]
  | c :: rest =>
    if c = '\n' then [] :: splitNlCore rest
    else
      match splitNlCore rest with
      | [] => [[c]]
      | l :: ls => (c :: l) :: ls

/-- Remove one trailing carriage return, as Rust `str::lines` does per line. -/
def stripCr (l : Text) : Text :=
  if l.getLast? = some '\r' then l.dropLast else l

/-- Embedding of Rust `str::lines`: split at newlines, drop the final empty
segment left by a trailing newline (or by an empty string), and strip one
trailing carriage return from each line. -/
def strLines (s : Text) : List Text :=
  let segs := splitNlCore s
  let segs := if segs.getLast? = some [] then segs.dropLast else segs
  segs.map stripCr

/-- Join data lines the way the tree builder stores them: every line is
pushed followed by one newline character. -/
def joinLines (ls : List Text) : Text :=
  (ls.map (fun l => l ++ ['\n'])).flatten

/-- Indent policy of a root node (`BmlIndent` in the source): a unit string
and a repeat count. -/
structure BmlIndent where
  string : Text
  «repeat» : Nat
deriving DecidableEq

/-- Embedding of `BmlIndent::default()`: two spaces, zero repeats. -/
def BmlIndent.default : BmlIndent := ⟨[' ', ' '], 0⟩

/-- Embedding of `BmlIndent::next()`: increment the repeat count. -/
def BmlIndent.next (i : BmlIndent) : BmlIndent :=
  { i with «repeat» := i.«repeat» + 1 }

/-- Repeat a character sequence `n` times (Rust `str::repeat`). -/
def repeatText (s : Text) : Nat → Text
  | 0 => []
  | n + 1 => s ++ repeatText s n

/-- Embedding of `Display for BmlIndent`: the unit repeated `repeat` times. -/
def BmlIndent.render (i : BmlIndent) : Text :=
  repeatText i.string i.«repeat»

/-- Node kind (`BmlKind` in the source). -/
inductive BmlKind where
  | Root (indent : BmlIndent)
  | Elem
  | Attr (quote : Bool)
deriving DecidableEq

/-- Embedding of `PartialEq for BmlKind`: kinds compare by tag only, the
payloads (`indent`, `quote`) are ignored. -/
def BmlKind.beq : BmlKind → BmlKind → Bool
  | .Root _, .Root _ => true
  | .Elem, .Elem => true
  | .Attr _, .Attr _ => true
  | _, _ => false

/-- The BML tree node (`BmlNode` in the source): a kind, the data lines
stored as one newline-terminated string, and the ordered child list (the
`Vec` fallback representation of the child multimap). -/
inductive BmlNode where
  | mk (kind : BmlKind) (data : Text) (node : List (Text × BmlNode)) : BmlNode

/-- The `kind` field. -/
def BmlNode.kind : BmlNode → BmlKind
  | .mk k _ _ => k

/-- The `data` field. -/
def BmlNode.data : BmlNode → Text
  | .mk _ d _ => d

/-- The `node` field (child list). -/
def BmlNode.node : BmlNode → List (Text × BmlNode)
  | .mk _ _ ns => ns

/-- Whether a node's kind is `Attr { .. }` (the serializer's take-while
test). -/
def isAttrNode (n : BmlNode) : Bool :=
  match n.kind with
  | .Attr _ => true
  | _ => false

/-- Embedding of `BmlNode::root()`. -/
def BmlNode.root : BmlNode := .mk (.Root BmlIndent.default) [] []

/-- Embedding of `BmlNode::elem()`. -/
def BmlNode.elem : BmlNode := .mk .Elem [] []

/-- Embedding of `BmlNode::attr()`: the quote flag starts out `true`. -/
def BmlNode.attr : BmlNode := .mk (.Attr true) [] []

/-- Embedding of `BmlNode::append`: push a `(name, node)` pair onto the
child list. -/
def BmlNode.append : BmlNode → Text × BmlNode → BmlNode
  | .mk k d ns, p => .mk k d (ns ++ [p])

/-- Replace the kind field (the builder's `attr.kind = ...` assignment). -/
def BmlNode.setKind : BmlNode → BmlKind → BmlNode
  | .mk _ d ns, k => .mk k d ns

/-- The builder's data push: `data.push_str(s)` followed by
`data.push('\n')`. -/
def BmlNode.pushData : BmlNode → Text → BmlNode
  | .mk k d ns, s => .mk k (d ++ s ++ ['\n']) ns

/-- Embedding of `BmlNode::lines()`: the data split into lines. -/
def BmlNode.lines (n : BmlNode) : List Text :=
  strLines n.data

/-- Embedding of `BmlNode::nodes()`: the child pairs in order. -/
def BmlNode.nodes (n : BmlNode) : List (Text × BmlNode) :=
  n.node

/-- Embedding of `BmlNode::named` (the `Vec` fallback): the children whose
key equals `name`, in order. -/
def BmlNode.named (n : BmlNode) (name : Text) : List BmlNode :=
  n.node.filterMap (fun p => if p.1 = name then some p.2 else none)

/-- Embedding of `BmlNode::value()`. Rust slices the byte range
`[..len - 1]`, which panics (`none` here) when the data is empty, and also
when the last character is not one byte wide (the range end would not be a
character boundary); otherwise it drops the final character. -/
def BmlNode.value (n : BmlNode) : Option Text :=
  match n.data.getLast? with
  | none => none
  | some c => if c.utf8Size = 1 then some n.data.dropLast else none

/-- Embedding of `BmlNode::set_indent`: valid on a root only, `none` models
the panic on every other kind. -/
def BmlNode.set_indent (n : BmlNode) (string : Text) (rep : Nat) : Option BmlNode :=
  match n.kind with
  | .Root _ => some (n.setKind (.Root ⟨string, rep⟩))
  | _ => none

mutual

/-- Embedding of `PartialEq for BmlNode` together with the derived pair and
list equality it relies on: data and children are compared, the kind (and
with it the indent policy and quote flag) is not. -/
def BmlNode.beq : BmlNode → BmlNode → Bool
  | .mk _ d1 n1, .mk _ d2 n2 => d1 == d2 && beqChildren n1 n2

/-- Pointwise equality of child lists: same length, equal names, and
recursively `beq`-equal nodes. -/
def beqChildren : List (Text × BmlNode) → List (Text × BmlNode) → Bool
  | [], [] => true
  | (a, x) :: xs, (b, y) :: ys => a == b && BmlNode.beq x y && beqChildren xs ys
  | _, _ => false

end

/-- The attribute-count of the element branch: the length of the child
prefix whose kinds are `Attr`. -/
def countAttrs : List (Text × BmlNode) → Nat
  | [] => 0
  | (_, c) :: rest => if isAttrNode c then countAttrs rest + 1 else 0

mutual

/-- Embedding of `BmlNode::serialize`. The three kind branches follow the
source: a root renders its children at the root's own stored indent with a
blank line between consecutive children; an element writes
`<indent><name>`, its attribute prefix, its data (inline when it has no
attributes and exactly one line, block form otherwise) and then the
children after the attribute prefix; an attribute writes
`<space><name>` and, when it has a first data line, `=value` or
`="value"` according to its quote flag. -/
def serialize (n : BmlNode) (name : Text) (indent : BmlIndent) : Text :=
  match n with
  | .mk (.Root rindent) _ ns => serializeRoot ns rindent
  | .mk .Elem data ns =>
    let attrs := countAttrs ns
    let inner := indent.next
    let ls := strLines data
    indent.render ++ name ++
    serializeAttrs ns inner ++
    (if attrs = 0 ∧ ls.length = 1 then
      [':', ' '] ++ ls.headI ++ ['\n']
    else
      ['\n'] ++ (ls.map (fun l => inner.render ++ [':'] ++ l ++ ['\n'])).flatten) ++
    serializeSkip attrs ns inner
  | .mk (.Attr quote) data _ =>
    [' '] ++ name ++
    (match strLines data with
     | [] => []
     | line :: _ =>
       if quote then ['=', '"'] ++ line ++ ['"'] else ['='] ++ line)

/-- The root branch's loop: children joined by one extra newline, none after
the last. -/
def serializeRoot (ns : List (Text × BmlNode)) (indent : BmlIndent) : Text :=
  match ns with
  | [] => []
  | [(nm, c)] => serialize c nm indent
  | (nm, c) :: rest => serialize c nm indent ++ ['\n'] ++ serializeRoot rest indent

/-- The element branch's attribute loop: serialize children while their kind
is `Attr`, stopping at the first other child (`take_while`). -/
def serializeAttrs (ns : List (Text × BmlNode)) (indent : BmlIndent) : Text :=
  match ns with
  | [] => []
  | (nm, c) :: rest =>
    if isAttrNode c then serialize c nm indent ++ serializeAttrs rest indent
    else []

/-- The element branch's trailing loop, `nodes().skip(attrs)`: drop the
first `k` children, then serialize every remaining child in order. -/
def serializeSkip (k : Nat) (ns : List (Text × BmlNode)) (indent : BmlIndent) : Text :=
  match k, ns with
  | _, [] => []
  | 0, (nm, c) :: rest => serialize c nm indent ++ serializeSkip 0 rest indent
  | j + 1, _ :: rest => serializeSkip j rest indent

end

/-- Serialize every child of a list in order (`skip` past nothing). -/
def serializeRem (ns : List (Text × BmlNode)) (indent : BmlIndent) : Text :=
  serializeSkip 0 ns indent

/-- Embedding of `Display for BmlNode`: serialize with an empty name and the
default indent (a root ignores both). -/
def display (n : BmlNode) : Text :=
  serialize n [] BmlIndent.default

/-- Modelled from the spec: one inner piece of a `data` production of the
external parse-event source. `space` marks the unquoted, space-delimited
attribute-value form (the `space_data_inner` rule the builder tests for);
`str` is the matched text. -/
structure BmlDataInner where
  space : Bool
  str : Text
deriving DecidableEq

/-- Modelled from the spec: the typed, nested productions the external
parse-event source emits — `name`, `data` (wrapping its inner pieces),
`attr` and `node` (each wrapping a nested production list). The
end-of-input marker carries no information and is omitted. -/
inductive BmlProd where
  | nameP (s : Text)
  | dataP (inner : List BmlDataInner)
  | attrP (inner : List BmlProd)
  | nodeP (inner : List BmlProd)

/-- The source span of a data production's inner pieces, embedding
`pair.into_inner().as_str()` for adjacent inner matches. -/
def dataInnerStr (inner : List BmlDataInner) : Text :=
  (inner.map BmlDataInner.str).flatten

/-- The builder's loop over an attribute's `data` production: each inner
piece first lowers the quote flag when it is the space-delimited form, then
contributes its text plus a newline. -/
def attrDataSteps : List BmlDataInner → BmlNode → BmlNode
  | [], a => a
  | d :: rest, a =>
    attrDataSteps rest ((if d.space then a.setKind (.Attr false) else a).pushData d.str)

/-- The builder's loop over an `attr` production's inner productions: a
`name` sets the attribute's key, a `data` runs `attrDataSteps`; other
shapes are unreachable for the grammar and leave the state unchanged. -/
def attrSteps : List BmlProd → Text × BmlNode → Text × BmlNode
  | [], st => st
  | .nameP s :: rest, (_, a) => attrSteps rest (s, a)
  | .dataP inner :: rest, (name, a) => attrSteps rest (name, attrDataSteps inner a)
  | _ :: rest, st => attrSteps rest st

/-- Embedding of the `Rule::attr` arm of `parse_node`: fold the inner
productions over a fresh `BmlNode::attr()` and an empty name. -/
def parse_attr (ps : List BmlProd) : Text × BmlNode :=
  attrSteps ps ([], BmlNode.attr)

/-- The body of the builder's loop in `parse_node`: a `name` production
sets the node's key, a `data` production appends its span plus a newline
to the node's data, an `attr` production appends the attribute built by
`parse_attr`, and a nested `node` production appends the child built by
the recursive fold over its inner productions starting from a fresh
`BmlNode::elem()`. -/
def parseSteps : List BmlProd → Text × BmlNode → Text × BmlNode
  | [], st => st
  | .nameP s :: rest, (_, node) => parseSteps rest (s, node)
  | .dataP inner :: rest, (name, node) =>
    parseSteps rest (name, node.pushData (dataInnerStr inner))
  | .attrP inner :: rest, (name, node) =>
    parseSteps rest (name, node.append (parse_attr inner))
  | .nodeP inner :: rest, (name, node) =>
    parseSteps rest (name, node.append (parseSteps inner ([], BmlNode.elem)))

/-- Embedding of `parse_node`: fold a node production's inner productions
over a fresh `BmlNode::elem()` and an empty name. -/
def parse_node (ps : List BmlProd) : Text × BmlNode :=
  parseSteps ps ([], BmlNode.elem)

/-- The loop of `TryFrom<&str>`: append the tree built from each top-level
`node` production to the root (the end-of-input marker contributes
nothing). -/
def rootSteps : List BmlProd → BmlNode → BmlNode
  | [], root => root
  | .nodeP inner :: rest, root => rootSteps rest (root.append (parse_node inner))
  | _ :: rest, root => rootSteps rest root

/-- Embedding of `BmlError`: the structured syntax error of the parse-event
source, carrying a diagnostic message. -/
structure BmlError where
  msg : Text
deriving DecidableEq

/-- Horizontal whitespace: the space/tab separators and indent characters
of the format. -/
def isWsChar (c : Char) : Bool := c = ' ' || c = '\t'

/-- Modelled from the spec: the characters a `name` production consists of
(alphanumerics and `-`, `.`, `_`). -/
def nameChar (c : Char) : Bool := c.isAlphanum || c = '-' || c = '.' || c = '_'

/-- One lexed input line: its indentation prefix and the text after it. -/
structure BmlLine where
  ind : Text
  txt : Text
deriving DecidableEq

/-- Modelled from the spec: split raw input into lines at newlines; a final
empty segment (from a trailing newline or empty input) is dropped. -/
def toRawLines (cs : Text) : List Text :=
  let segs := splitNlCore cs
  if segs.getLast? = some [] then segs.dropLast else segs

/-- Modelled from the spec: classify one raw line. A `\r\n` line ending is
tolerated; any other carriage return fails the grammar. Blank
(whitespace-only) lines and comment lines starting `//` contribute
nothing; any other line is split into indent and content. -/
def lexLine (raw : Text) : Except BmlError (Option BmlLine) :=
  let l := stripCr raw
  if l.any (· = '\r') then .error ⟨"carriage return inside line".toList⟩
  else
    let ind := l.takeWhile isWsChar
    let txt := l.dropWhile isWsChar
    if txt = [] then .ok none
    else if txt.take 2 = ['/', '/'] then .ok none
    else .ok (some ⟨ind, txt⟩)

/-- Lex every raw line, keeping the significant ones. -/
def lexLines : List Text → Except BmlError (List BmlLine)
  | [] => .ok []
  | raw :: rest =>
    match lexLine raw, lexLines rest with
    | .error e, _ => .error e
    | _, .error e => .error e
    | .ok none, .ok ls => .ok ls
    | .ok (some l), .ok ls => .ok (l :: ls)

/-- Characters allowed in an unquoted, space-delimited attribute value:
anything up to the next separator, except a quote. -/
def bareValueChar (c : Char) : Bool := !isWsChar c && c != '"'

/-- Modelled from the spec: parse one attribute (`name`, `name=value` or
`name="value"`) at the start of the text `cs`, returning its productions
and the remaining text (always a proper suffix). An unterminated quoted
value, an empty name or value, or a missing separator after the value is a
syntax error. -/
def parseOneAttr (cs : Text) : Except BmlError (BmlProd × Text) :=
  let anm := cs.takeWhile nameChar
  let r1 := cs.dropWhile nameChar
  if anm = [] then .error ⟨"expected attribute name".toList⟩
  else
    match r1 with
    | [] => .ok (.attrP [.nameP anm], [])
    | c :: r2 =>
      if c = '=' then
        match r2 with
        | [] => .error ⟨"expected attribute value".toList⟩
        | c2 :: r3 =>
          if c2 = '"' then
            match r3.dropWhile (· ≠ '"') with
            | [] => .error ⟨"unterminated quoted attribute value".toList⟩
            | _ :: r4 =>
              if r4 = [] ∨ isWsChar r4.headI then
                .ok (.attrP [.nameP anm, .dataP [⟨false, r3.takeWhile (· ≠ '"')⟩]], r4)
              else .error ⟨"expected separator after attribute value".toList⟩
          else
            if r2.takeWhile bareValueChar = [] then
              .error ⟨"expected attribute value".toList⟩
            else if r2.dropWhile bareValueChar = []
                ∨ isWsChar ((r2.dropWhile bareValueChar).headI) then
              .ok (.attrP [.nameP anm, .dataP [⟨true, r2.takeWhile bareValueChar⟩]],
                r2.dropWhile bareValueChar)
            else .error ⟨"expected separator after attribute value".toList⟩
      else if isWsChar c then .ok (.attrP [.nameP anm], c :: r2)
      else .error ⟨"unexpected character in attribute list".toList⟩

/-- Modelled from the spec: the attribute list after an element name —
attributes separated (and preceded) by runs of spaces/tabs, ending at the
end of the line. `fuel` bounds the recursion depth; every attribute
consumes at least one character, so any fuel above the text length is
enough (`parseHeader` supplies `length + 1`). -/
def parseAttrs : Nat → Text → Except BmlError (List BmlProd)
  | 0, _ => .error ⟨"recursion depth exceeded".toList⟩
  | fuel + 1, cs =>
    if cs.dropWhile isWsChar = [] then .ok []
    else
      match parseOneAttr (cs.dropWhile isWsChar) with
      | .error e => .error e
      | .ok (a, rest) =>
        match parseAttrs fuel rest with
        | .error e => .error e
        | .ok as => .ok (a :: as)

/-- Modelled from the spec: parse the content of an element's header line —
a nonempty name, then either the end of the line, inline data
`: value` with one optional space after the colon (legal only when there
are no attributes), or a whitespace-separated attribute list. -/
def parseHeader (txt : Text) : Except BmlError (Text × List BmlProd × Option Text) :=
  let nm := txt.takeWhile nameChar
  let r := txt.dropWhile nameChar
  if nm = [] then .error ⟨"expected element name".toList⟩
  else
    match r with
    | [] => .ok (nm, [], none)
    | c :: r2 =>
      if c = ':' then
        .ok (nm, [], some (if r2.head? = some ' ' then r2.tail else r2))
      else if isWsChar c then
        match parseAttrs (r.length + 1) r with
        | .error e => .error e
        | .ok attrs => .ok (nm, attrs, none)
      else .error ⟨"unexpected character after element name".toList⟩

/-- The data production of an inline or block data line. -/
def dataEvt (v : Text) : BmlProd := .dataP [⟨false, v⟩]

/-- Modelled from the spec: parse consecutive items at exactly the indent
`ind` — data lines (only where `allowData` holds: inside the block of an
element without inline data) and element headers, each header optionally
followed by a block of deeper lines whose common indent is the indent of
the block's first line and must strictly extend `ind`. A line strictly
deeper than the established indent without a header above it is an
indentation error; a shallower or incomparable line closes the scope and
is returned unconsumed. `fuel` bounds the recursion depth; every
recursive call strictly shrinks the line list, so any fuel above the
number of lines is enough (`pestParse` supplies `length + 1`). -/
def parseItems : Nat → List BmlLine → Text → Bool →
    Except BmlError (List BmlProd × List BmlLine)
  | 0, _, _, _ => .error ⟨"recursion depth exceeded".toList⟩
  | _ + 1, [], _, _ => .ok ([], [])
  | fuel + 1, ln :: rest, ind, allowData =>
    if ln.ind = ind then
      if ln.txt.head? = some ':' then
        if allowData then
          match parseItems fuel rest ind allowData with
          | .error e => .error e
          | .ok (evts, rem) => .ok (dataEvt ln.txt.tail :: evts, rem)
        else .error ⟨"data line not allowed here".toList⟩
      else
        match parseHeader ln.txt with
        | .error e => .error e
        | .ok (nm, attrEvts, inl) =>
          let inlineEvts : List BmlProd :=
            match inl with
            | none => []
            | some v => [dataEvt v]
          match rest with
          | [] => .ok ([.nodeP (.nameP nm :: attrEvts ++ inlineEvts)], [])
          | l2 :: rest2 =>
            if ind.isPrefixOf l2.ind ∧ l2.ind ≠ ind then
              match parseItems fuel (l2 :: rest2) l2.ind inl.isNone with
              | .error e => .error e
              | .ok (blockEvts, rem1) =>
                match parseItems fuel rem1 ind allowData with
                | .error e => .error e
                | .ok (sibEvts, rem2) =>
                  .ok (.nodeP (.nameP nm :: attrEvts ++ inlineEvts ++ blockEvts) :: sibEvts,
                    rem2)
            else
              match parseItems fuel (l2 :: rest2) ind allowData with
              | .error e => .error e
              | .ok (sibEvts, rem) =>
                .ok (.nodeP (.nameP nm :: attrEvts ++ inlineEvts) :: sibEvts, rem)
    else if ind.isPrefixOf ln.ind then .error ⟨"inconsistent indentation".toList⟩
    else .ok ([], ln :: rest)

/-- Modelled from the spec: the whole external parse — lex the raw lines,
then parse the top-level items at the empty indent with data lines
disallowed. At the top level every line's indent extends the empty indent,
so the scope never closes early; a nonempty remainder is a defensive
internal error. -/
def pestParse (cs : Text) : Except BmlError (List BmlProd) :=
  match lexLines (toRawLines cs) with
  | .error e => .error e
  | .ok ls =>
    match parseItems (ls.length + 1) ls [] false with
    | .error e => .error e
    | .ok (evts, []) => .ok evts
    | .ok (_, _ :: _) => .error ⟨"unconsumed input".toList⟩

/-- Embedding of `TryFrom<&str> for BmlNode`: run the parse-event source,
then fold the top-level productions into a fresh root. -/
def try_from (s : String) : Except BmlError BmlNode :=
  match pestParse s.toList with
  | .error e => .error e
  | .ok evts => .ok (rootSteps evts BmlNode.root)

/-- A valid production name: nonempty and made of name characters. -/
def validName (s : Text) : Bool := !s.isEmpty && s.all nameChar

/-- A valid data line: free of newline and carriage-return characters. -/
def validLine (l : Text) : Bool := l.all (fun c => c != '\n' && c != '\r')

/-- Characters that can occur inside a quoted attribute value. -/
def quotedValueChar (c : Char) : Bool := c != '"' && c != '\n' && c != '\r'

/-- Characters that can occur inside an unquoted attribute value (no
separators, quotes or line breaks). -/
def spaceValueChar (c : Char) : Bool := bareValueChar c && c != '\n' && c != '\r'

/-- Well-formed node data: a newline-terminated join of its own lines, each
line valid. This is the shape the builder produces, one `push` of a line
plus `'\n'` at a time. -/
def wfData (d : Text) : Bool :=
  d == joinLines (strLines d) && (strLines d).all validLine

/-- Well-formed attribute child: a valid name, no children of its own, and
data that is empty or one terminated line of value characters; an
unquoted (`quote = false`) attribute always has one nonempty value line. -/
def wfAttrNode : Text → BmlNode → Bool
  | nm, .mk (.Attr true) d ns =>
    validName nm && ns.isEmpty &&
    (d.isEmpty || (d.getLast? == some '\n' && d.dropLast.all quotedValueChar))
  | nm, .mk (.Attr false) d ns =>
    validName nm && ns.isEmpty &&
    (d.getLast? == some '\n' && !d.dropLast.isEmpty && d.dropLast.all spaceValueChar)
  | _, _ => false

mutual

/-- Well-formed element subtree: a valid name, element kind, well-formed
data and well-formed children. -/
def wfElem : Text → BmlNode → Bool
  | nm, .mk .Elem d ns => validName nm && wfData d && wfChildren ns
  | _, _ => false

/-- Well-formed child list of an element: a prefix of well-formed
attributes followed by well-formed element subtrees only. -/
def wfChildren : List (Text × BmlNode) → Bool
  | [] => true
  | (nm, c) :: rest =>
    if isAttrNode c then wfAttrNode nm c && wfChildren rest
    else wfElem nm c && wfElems rest

/-- A list of well-formed element subtrees. -/
def wfElems : List (Text × BmlNode) → Bool
  | [] => true
  | (nm, c) :: rest => wfElem nm c && wfElems rest

end

/-- Well-formed parsed tree: a root of the default indent policy, no data
of its own, and well-formed element children. -/
def wfRoot : BmlNode → Bool
  | .mk k d ns => k == .Root BmlIndent.default && d.isEmpty && wfElems ns

/-- Whether an attribute production's inner list contains a data production
with a space-delimited (unquoted) inner piece. -/
def hasSpaceData (ps : List BmlProd) : Bool :=
  ps.any (fun p =>
    match p with
    | .dataP inner => inner.any BmlDataInner.space
    | _ => false)

/-- Serialization as a Rust `String` (`to_string` via `Display`). -/
def displayString (n : BmlNode) : String := String.mk (display n)

/-- Lines joined by single newline characters, no terminator — the shape
`value()` is specified to return. -/
def joinNl : List Text → Text
  | [] => []
  | [l] => l
  | l :: t => l ++ '\n' :: joinNl t

/-- The default two-space indent rendered at nesting level `k`. -/
def spI (k : Nat) : Text := repeatText [' ', ' '] k

/-- The text `t` lexes to exactly the significant lines `ls`. -/
def lexesTo (t : Text) (ls : List BmlLine) : Prop :=
  lexLines (toRawLines t) = .ok ls

/-- The first line of `ls`, if any, sits at a default-indent level at most
`k`. -/
def headLevelLe (k : Nat) (ls : List BmlLine) : Prop :=
  ls = [] ∨ ∃ m b, m ≤ k ∧ ls.head? = some ⟨spI m, b⟩

/-- The first line of `ls`, if any, sits at a default-indent level strictly
below `k`. -/
def headLevelLt (k : Nat) (ls : List BmlLine) : Prop :=
  ls = [] ∨ ∃ m b, m < k ∧ ls.head? = some ⟨spI m, b⟩

/-- Parsing `lines` at indent `ind` succeeds with events `evts` and
unconsumed remainder `rem`, for every sufficient fuel. -/
def parseOK (lines : List BmlLine) (ind : Text) (ad : Bool)
    (evts : List BmlProd) (rem : List BmlLine) : Prop :=
  ∀ fuel, lines.length < fuel → parseItems fuel lines ind ad = .ok (evts, rem)

mutual

/-- Shape of a well-formed `node` production as the modelled event source
emits it: a valid name, attribute productions, then data and nested node
productions. -/
inductive EvtWFNode : BmlProd → Prop where
  | intro (nm : Text) (attrs tail : List BmlProd) :
      validName nm = true → EvtWFAttrs attrs → EvtWFTail tail →
      EvtWFNode (.nodeP (.nameP nm :: (attrs ++ tail)))

/-- Shape of a list of well-formed `attr` productions: bare, quoted, or
space-delimited. -/
inductive EvtWFAttrs : List BmlProd → Prop where
  | nil : EvtWFAttrs []
  | bare (nm : Text) (rest : List BmlProd) :
      validName nm = true → EvtWFAttrs rest →
      EvtWFAttrs (.attrP [.nameP nm] :: rest)
  | quoted (nm v : Text) (rest : List BmlProd) :
      validName nm = true → v.all quotedValueChar = true → EvtWFAttrs rest →
      EvtWFAttrs (.attrP [.nameP nm, .dataP [⟨false, v⟩]] :: rest)
  | unquoted (nm v : Text) (rest : List BmlProd) :
      validName nm = true → v ≠ [] → v.all spaceValueChar = true → EvtWFAttrs rest →
      EvtWFAttrs (.attrP [.nameP nm, .dataP [⟨true, v⟩]] :: rest)

/-- Shape of a well-formed mixed list of data and nested node
productions. -/
inductive EvtWFTail : List BmlProd → Prop where
  | nil : EvtWFTail []
  | data (v : Text) (rest : List BmlProd) :
      validLine v = true → EvtWFTail rest → EvtWFTail (dataEvt v :: rest)
  | node (p : BmlProd) (rest : List BmlProd) :
      EvtWFNode p → EvtWFTail rest → EvtWFTail (p :: rest)

end

/-- The default indent policy at repeat count `k` (the policy `next`
produces after `k` steps from the default); its rendering is `spI k`. -/
def indAt (k : Nat) : BmlIndent := ⟨[' ', ' '], k⟩

/-- A production list that is exactly a sequence of `node` productions,
each rebuilding (via `parse_node`) the corresponding named child. -/
inductive NodePEvts : List BmlProd → List (Text × BmlNode) → Prop where
  | nil : NodePEvts [] []
  | cons (inner : List BmlProd) (nm : Text) (c : BmlNode) (ps : List BmlProd)
      (cs : List (Text × BmlNode)) : parse_node inner = (nm, c) →
      NodePEvts ps cs → NodePEvts (.nodeP inner :: ps) ((nm, c) :: cs)

/-- Helper lemmas about splitting and joining lines. -/
theorem splitNlCore_append_line : ∀ (l rest : Text), '\n' ∉ l →
    splitNlCore (l ++ '\n' :: rest) = l :: splitNlCore rest
  | [], rest, _ => by simp [splitNlCore]
  | c :: t, rest, h => by
    have hc : ¬ c = '\n' := fun hh => h (hh ▸ List.mem_cons_self c t)
    have ih := splitNlCore_append_line t rest (fun hm => h (List.mem_cons_of_mem c hm))
    simp only [List.cons_append, splitNlCore, if_neg hc, List.append_eq, ih]

theorem splitNlCore_ne_nil : ∀ s : Text, splitNlCore s ≠ []
  | [] => by simp [splitNlCore]
  | c :: rest => by
    simp only [splitNlCore]
    split
    · simp
    · split <;> simp

theorem joinLines_cons (l : Text) (t : List Text) :
    joinLines (l :: t) = l ++ '\n' :: joinLines t := by
  simp [joinLines]

theorem splitNlCore_joinLines : ∀ ls : List Text, (∀ l ∈ ls, '\n' ∉ l) →
    splitNlCore (joinLines ls) = ls ++ [[]]
  | [], _ => by simp [joinLines, splitNlCore]
  | l :: t, h => by
    rw [joinLines_cons, splitNlCore_append_line l _ (h l (List.mem_cons_self l t)),
      splitNlCore_joinLines t (fun x hx => h x (List.mem_cons_of_mem l hx))]
    simp

theorem validLine_no_nl {l : Text} (h : validLine l = true) : '\n' ∉ l := by
  intro hm
  simp only [validLine, List.all_eq_true] at h
  have := h '\n' hm
  simp at this

theorem validLine_no_cr {l : Text} (h : validLine l = true) : '\r' ∉ l := by
  intro hm
  simp only [validLine, List.all_eq_true] at h
  have := h '\r' hm
  simp at this

theorem stripCr_of_validLine {l : Text} (h : validLine l = true) : stripCr l = l := by
  unfold stripCr
  split
  · next hl =>
    exfalso
    exact validLine_no_cr h (List.mem_of_mem_getLast? hl)
  · rfl

theorem strLines_joinLines (ls : List Text) (h : ∀ l ∈ ls, validLine l = true) :
    strLines (joinLines ls) = ls := by
  unfold strLines
  rw [splitNlCore_joinLines ls (fun l hl => validLine_no_nl (h l hl))]
  simp only [List.getLast?_concat, if_pos rfl, List.dropLast_concat]
  exact (List.map_congr_left (fun l hl => stripCr_of_validLine (h l hl))).trans
    (List.map_id' ls)

theorem joinLines_concat_form : ∀ (l : Text) (t : List Text),
    joinLines (l :: t) = joinNl (l :: t) ++ ['\n']
  | l, [] => by simp [joinLines, joinNl]
  | l, t0 :: ts => by
    rw [joinLines_cons, joinLines_concat_form t0 ts]
    show l ++ '\n' :: (joinNl (t0 :: ts) ++ ['\n']) = (l ++ '\n' :: joinNl (t0 :: ts)) ++ ['\n']
    simp

theorem joinLines_getLast {ls : List Text} (h : ls ≠ []) :
    (joinLines ls).getLast? = some '\n' := by
  match ls with
  | [] => exact absurd rfl h
  | l :: t => rw [joinLines_concat_form]; exact List.getLast?_concat _

theorem dropLast_joinLines : ∀ ls : List Text, (joinLines ls).dropLast = joinNl ls
  | [] => rfl
  | l :: t => by rw [joinLines_concat_form, List.dropLast_concat]

theorem splitNlCore_eq_single_nil : ∀ d : Text, splitNlCore d = [[]] → d = []
  | [], _ => rfl
  | c :: rest, h => by
    by_cases hc : c = '\n'
    · rw [splitNlCore, if_pos hc] at h
      exact absurd (List.cons.injEq _ _ _ _ ▸ h).2 (splitNlCore_ne_nil rest)
    · rw [splitNlCore, if_neg hc] at h
      revert h
      split
      · intro h
        simp at h
      · intro h
        simp at h

theorem strLines_eq_nil {d : Text} (h : strLines d = []) : d = [] := by
  apply splitNlCore_eq_single_nil
  unfold strLines at h
  replace h := List.map_eq_nil_iff.mp h
  revert h
  split
  · next hl =>
    intro h
    have hne := splitNlCore_ne_nil d
    match hsp : splitNlCore d with
    | [] => exact absurd hsp hne
    | [a] =>
      rw [hsp] at hl
      simp at hl
      rw [hl]
    | a :: b :: t =>
      rw [hsp] at h
      simp [List.dropLast] at h
  · next hl =>
    intro h
    exact absurd h (splitNlCore_ne_nil d)

theorem strLines_nil : strLines [] = [] := rfl

theorem strLines_eq_nil_iff (d : Text) : strLines d = [] ↔ d = [] :=
  ⟨strLines_eq_nil, fun h => h ▸ strLines_nil⟩

theorem wfData_eq {d : Text} (h : wfData d = true) : d = joinLines (strLines d) := by
  unfold wfData at h
  exact beq_iff_eq.mp (Bool.and_elim_left h)

theorem wfData_valid {d : Text} (h : wfData d = true) :
    ∀ l ∈ strLines d, validLine l = true := by
  unfold wfData at h
  exact List.all_eq_true.mp (Bool.and_elim_right h)

theorem wfData_joinLines {ls : List Text} (h : ∀ l ∈ ls, validLine l = true) :
    wfData (joinLines ls) = true := by
  unfold wfData
  rw [strLines_joinLines ls h]
  simp only [beq_self_eq_true, Bool.true_and, List.all_eq_true]
  exact h

theorem value_of_wfData {n : BmlNode} (h : wfData n.data = true) (hne : n.lines ≠ []) :
    n.value = some (joinNl n.lines) := by
  have hlines : n.lines = strLines n.data := rfl
  have hd : n.data = joinLines (strLines n.data) := wfData_eq h
  have hlast : n.data.getLast? = some '\n' := by
    rw [hd]
    exact joinLines_getLast (hlines ▸ hne)
  unfold BmlNode.value
  rw [hlast]
  have hsz : '\n'.utf8Size = 1 := by decide
  show (if '\n'.utf8Size = 1 then some n.data.dropLast else none) = some (joinNl n.lines)
  rw [if_pos hsz, hlines]
  conv_lhs => rw [hd]
  rw [dropLast_joinLines]

mutual

theorem beq_refl : ∀ n : BmlNode, BmlNode.beq n n = true
  | .mk k d ns => by
    unfold BmlNode.beq
    simp only [beq_self_eq_true, Bool.true_and]
    exact beqChildren_refl ns

theorem beqChildren_refl : ∀ l : List (Text × BmlNode), beqChildren l l = true
  | [] => rfl
  | (a, x) :: xs => by
    unfold beqChildren
    simp only [beq_self_eq_true, Bool.true_and, Bool.and_eq_true]
    exact ⟨beq_refl x, beqChildren_refl xs⟩

end

theorem data_append (r : BmlNode) (p : Text × BmlNode) : (r.append p).data = r.data := by
  cases r
  rfl

theorem rootSteps_data : ∀ (ps : List BmlProd) (r : BmlNode),
    (rootSteps ps r).data = r.data
  | [], _ => rfl
  | .nodeP inner :: rest, r => by
    rw [show rootSteps (.nodeP inner :: rest) r = rootSteps rest (r.append (parse_node inner))
      from rfl, rootSteps_data rest, data_append]
  | .nameP _ :: rest, r => rootSteps_data rest r
  | .dataP _ :: rest, r => rootSteps_data rest r
  | .attrP _ :: rest, r => rootSteps_data rest r

/-- Claim C3: for every node with at least one data line whose data has the
builder's line-joined shape, `value()` is the concatenation of the node's
data lines joined by newline characters, the trailing newline of the last
line stripped. -/
theorem claim_C3_value_is_joined_lines (n : BmlNode)
    (hwf : wfData n.data = true) (hne : n.lines ≠ []) :
    n.value = some (joinNl n.lines) :=
  value_of_wfData hwf hne

/-- Witness for C3: a two-line node yields `"line1\nline2"`. -/
theorem claim_C3_witness :
    (BmlNode.mk .Elem ("line1\nline2\n").toList []).value
      = some (joinNl (BmlNode.mk .Elem ("line1\nline2\n").toList []).lines) :=
  claim_C3_value_is_joined_lines _ (by decide) (by decide)

/-- Claim C4: both usage errors panic (modelled as `none`): `set_indent` on
every node whose kind is not `Root`, and `value()` on every node with zero
data lines. -/
theorem claim_C4_usage_errors_panic :
    (∀ (n : BmlNode) (s : Text) (r : Nat), (∀ i, n.kind ≠ .Root i) →
       n.set_indent s r = none) ∧
    (∀ n : BmlNode, n.lines = [] → n.value = none) := by
  constructor
  · intro n s r h
    unfold BmlNode.set_indent
    match hk : n.kind with
    | .Root i => exact absurd hk (h i)
    | .Elem => rfl
    | .Attr _ => rfl
  · intro n h
    have hd : n.data = [] := strLines_eq_nil h
    unfold BmlNode.value
    rw [hd]
    rfl

/-- Witness for C4: an element node rejects `set_indent`, and a node with
empty data rejects `value()`. -/
theorem claim_C4_witness :
    BmlNode.elem.set_indent ['\t'] 0 = none ∧ BmlNode.elem.value = none :=
  ⟨claim_C4_usage_errors_panic.1 BmlNode.elem ['\t'] 0
      (fun i h => by simp [BmlNode.elem, BmlNode.kind] at h),
    claim_C4_usage_errors_panic.2 BmlNode.elem (by decide)⟩

/-- Claim C5: node equality is data plus children, and nothing else: two
nodes with equal data and identical children compare equal whatever their
kinds (so indent policy and quote flag never participate), and in general
`beq` holds exactly when the data fields agree and the child lists agree
pointwise. -/
theorem claim_C5_equality_ignores_kind :
    (∀ (k1 k2 : BmlKind) (d : Text) (ns : List (Text × BmlNode)),
       BmlNode.beq (.mk k1 d ns) (.mk k2 d ns) = true) ∧
    (∀ n m : BmlNode,
       BmlNode.beq n m = true ↔ (n.data = m.data ∧ beqChildren n.node m.node = true)) := by
  constructor
  · intro k1 k2 d ns
    unfold BmlNode.beq
    simp only [beq_self_eq_true, Bool.true_and]
    exact beqChildren_refl ns
  · intro n m
    match n, m with
    | .mk k1 d1 n1, .mk k2 d2 n2 =>
      unfold BmlNode.beq
      simp [BmlNode.data, BmlNode.node, Bool.and_eq_true]

/-- Witness for C5: a root with modified indent, an element and an
attribute with either quote flag all compare equal when data and children
agree. -/
theorem claim_C5_witness :
    BmlNode.beq (.mk (.Root ⟨['\t'], 3⟩) ['x'] []) (.mk (.Attr false) ['x'] []) = true :=
  claim_C5_equality_ignores_kind.1 (.Root ⟨['\t'], 3⟩) (.Attr false) ['x'] []

/-- Claim C10: every tree `try_from` returns has a root with empty own
data: its line iterator is empty and `value()` on it is a usage error
(panic, modelled as `none`). -/
theorem claim_C10_root_data_empty (s : String) (A : BmlNode)
    (h : try_from s = .ok A) : A.data = [] ∧ A.lines = [] ∧ A.value = none := by
  have hd : A.data = [] := by
    unfold try_from at h
    match hp : pestParse s.toList with
    | .error e => rw [hp] at h; exact absurd h (by simp)
    | .ok evts =>
      rw [hp] at h
      have : A = rootSteps evts BmlNode.root := by
        have := h
        simp only [Except.ok.injEq] at this
        exact this.symm
      rw [this, rootSteps_data]
      rfl
  refine ⟨hd, ?_, ?_⟩
  · show strLines A.data = []
    rw [hd]
    rfl
  · unfold BmlNode.value
    rw [hd]
    rfl

/-- Witness for C10: the root parsed from `"a\n"`. -/
theorem claim_C10_witness :
    (BmlNode.mk (.Root BmlIndent.default) [] [(['a'], .mk .Elem [] [])]).data = []
      ∧ (BmlNode.mk (.Root BmlIndent.default) [] [(['a'], .mk .Elem [] [])]).lines = []
      ∧ (BmlNode.mk (.Root BmlIndent.default) [] [(['a'], .mk .Elem [] [])]).value = none :=
  claim_C10_root_data_empty "a\n" _ (by
    simp [try_from, pestParse, lexLines, toRawLines, splitNlCore, stripCr, lexLine, parseItems,
      parseHeader, parseAttrs, parseOneAttr, nameChar, isWsChar, dataEvt, rootSteps, parse_node,
      parseSteps, BmlNode.root, BmlNode.elem, BmlNode.append])

set_option maxHeartbeats 4000000 in
set_option maxRecDepth 4000 in
/-- Claim C6: parsing `"0:a\n1:b\n2:c\n1:d\n3:e\n"` yields top-level
children that iterate, via `nodes()`, exactly as the (name, value) pairs
("0","a"), ("1","b"), ("2","c"), ("1","d"), ("3","e") — duplicate keys kept
in global insertion order, never merged or reordered. -/
theorem claim_C6_ordered_iteration :
    (try_from "0:a\n1:b\n2:c\n1:d\n3:e\n").toOption.map
        (fun A => A.nodes.map (fun p => (p.1, p.2.value)))
      = some [(['0'], some ['a']), (['1'], some ['b']), (['2'], some ['c']),
          (['1'], some ['d']), (['3'], some ['e'])] := by
  simp only [try_from]
  rw [show pestParse ("0:a\n1:b\n2:c\n1:d\n3:e\n").toList
      = .ok [.nodeP [.nameP ['0'], dataEvt ['a']], .nodeP [.nameP ['1'], dataEvt ['b']],
          .nodeP [.nameP ['2'], dataEvt ['c']], .nodeP [.nameP ['1'], dataEvt ['d']],
          .nodeP [.nameP ['3'], dataEvt ['e']]] from rfl]
  simp [rootSteps, parse_node, parseSteps, dataEvt, BmlNode.root, BmlNode.elem, BmlNode.append,
    BmlNode.pushData, dataInnerStr, BmlNode.nodes, BmlNode.node, BmlNode.value, BmlNode.data,
    Except.toOption]
  decide

set_option maxHeartbeats 4000000 in
set_option maxRecDepth 8000 in
/-- Claim C9: `try_from` always returns either a full tree or a structured
error (never a partial tree), and the two malformed inputs — a child line
whose indent is inconsistent with the established stack, and an
unterminated quoted attribute value — are syntax errors. -/
theorem claim_C9_invalid_input_rejected :
    (∀ s : String, (∃ A, try_from s = .ok A) ∨ (∃ e, try_from s = .error e)) ∧
    try_from "a\n  b\n c\n" = .error ⟨"inconsistent indentation".toList⟩ ∧
    try_from "a b=\"x\n" = .error ⟨"unterminated quoted attribute value".toList⟩ := by
  refine ⟨fun s => ?_, ?_, ?_⟩
  · match h : try_from s with
    | .ok A => exact Or.inl ⟨A, rfl⟩
    | .error e => exact Or.inr ⟨e, rfl⟩
  · rfl
  · rfl

theorem countAttrs_cons (nm : Text) (c : BmlNode) (rest : List (Text × BmlNode)) :
    countAttrs ((nm, c) :: rest) = if isAttrNode c then countAttrs rest + 1 else 0 := rfl

theorem serializeAttrs_eq_nil {ns : List (Text × BmlNode)} {ind : BmlIndent}
    (h : countAttrs ns = 0) : serializeAttrs ns ind = [] := by
  match ns with
  | [] => rfl
  | (nm, c) :: rest =>
    cases hc : isAttrNode c with
    | true => rw [countAttrs_cons, if_pos hc] at h; exact absurd h (Nat.succ_ne_zero _)
    | false => simp [serializeAttrs, hc]

/-- Claim C2: serializing an element with zero attribute children and
exactly one data line renders the name, `': '` and the value inline on one
line; in every other case (zero data lines, two or more data lines, or at
least one attribute) the name ends its own line and each data line gets
its own indented line with a leading `':'`. -/
theorem claim_C2_inline_vs_block :
    (∀ (d : Text) (ns : List (Text × BmlNode)) (name v : Text) (ind : BmlIndent),
       countAttrs ns = 0 → strLines d = [v] →
       serialize (.mk .Elem d ns) name ind
         = ind.render ++ name ++ ([':', ' '] ++ v ++ ['\n'])
             ++ serializeRem ns ind.next) ∧
    (∀ (d : Text) (ns : List (Text × BmlNode)) (name : Text) (ind : BmlIndent),
       ¬(countAttrs ns = 0 ∧ (strLines d).length = 1) →
       serialize (.mk .Elem d ns) name ind
         = ind.render ++ name ++ serializeAttrs ns ind.next
             ++ (['\n'] ++ ((strLines d).map
                  (fun l => ind.next.render ++ [':'] ++ l ++ ['\n'])).flatten)
             ++ serializeSkip (countAttrs ns) ns ind.next) := by
  constructor
  · intro d ns name v ind h0 h1
    rw [serialize, h0, h1]
    rw [serializeAttrs_eq_nil h0, serializeRem]
    simp
  · intro d ns name ind h
    rw [serialize]
    rw [if_neg h]

/-- Witness for C2: a one-line element renders inline, a two-line element
renders in block form. -/
theorem claim_C2_witness :
    serialize (.mk .Elem ['x', '\n'] []) ['n'] BmlIndent.default
      = BmlIndent.default.render ++ ['n'] ++ ([':', ' '] ++ ['x'] ++ ['\n'])
          ++ serializeRem [] BmlIndent.default.next ∧
    serialize (.mk .Elem ['x', '\n', 'y', '\n'] []) ['n'] BmlIndent.default
      = BmlIndent.default.render ++ ['n'] ++ serializeAttrs [] BmlIndent.default.next
          ++ (['\n'] ++ ((strLines ['x', '\n', 'y', '\n']).map
               (fun l => BmlIndent.default.next.render ++ [':'] ++ l ++ ['\n'])).flatten)
          ++ serializeSkip (countAttrs []) [] BmlIndent.default.next :=
  ⟨claim_C2_inline_vs_block.1 ['x', '\n'] [] ['n'] ['x'] BmlIndent.default rfl (by decide),
    claim_C2_inline_vs_block.2 ['x', '\n', 'y', '\n'] [] ['n'] BmlIndent.default (by decide)⟩

theorem serializeRoot_eq_joinNl : ∀ (ns : List (Text × BmlNode)) (i : BmlIndent),
    serializeRoot ns i = joinNl (ns.map (fun p => serialize p.2 p.1 i))
  | [], _ => rfl
  | [(nm, c)], _ => rfl
  | (nm, c) :: (nm2, c2) :: rest, i => by
    rw [show serializeRoot ((nm, c) :: (nm2, c2) :: rest) i
        = serialize c nm i ++ ['\n'] ++ serializeRoot ((nm2, c2) :: rest) i from rfl]
    rw [serializeRoot_eq_joinNl ((nm2, c2) :: rest) i]
    show _ = joinNl (serialize c nm i :: serialize c2 nm2 i :: _)
    rw [show ∀ (a b : Text) (t : List Text), joinNl (a :: b :: t) = a ++ '\n' :: joinNl (b :: t)
      from fun a b t => rfl]
    simp

theorem getLast?_append_right (a : Text) {b : Text} {c : Char}
    (h : b.getLast? = some c) : (a ++ b).getLast? = some c := by
  rw [List.getLast?_append_of_ne_nil a (fun hb => by rw [hb] at h; exact Option.noConfusion h)]
  exact h

theorem getLast?_concat_nl (a : Text) : (a ++ ['\n']).getLast? = some '\n' :=
  List.getLast?_concat a

theorem flatten_ends_nl : ∀ xs : List Text, xs ≠ [] →
    (∀ x ∈ xs, x.getLast? = some '\n') → xs.flatten.getLast? = some '\n'
  | [x], _, h => by
    simpa using h x (List.mem_singleton_self x)
  | x :: y :: t, _, h => by
    rw [List.flatten_cons]
    exact getLast?_append_right x
      (flatten_ends_nl (y :: t) (by simp) (fun z hz => h z (List.mem_cons_of_mem x hz)))

theorem sizeOf_drop_le : ∀ (k : Nat) (ns : List (Text × BmlNode)),
    sizeOf (ns.drop k) ≤ sizeOf ns
  | 0, _ => Nat.le_refl _
  | _ + 1, [] => Nat.le_refl _
  | k + 1, p :: rest => by
    rw [List.drop_succ_cons]
    calc sizeOf (rest.drop k) ≤ sizeOf rest := sizeOf_drop_le k rest
    _ ≤ sizeOf (p :: rest) := by simp

theorem wfChildren_drop : ∀ ns : List (Text × BmlNode), wfChildren ns = true →
    wfElems (ns.drop (countAttrs ns)) = true
  | [], _ => rfl
  | (nm, c) :: rest, h => by
    cases hc : isAttrNode c with
    | true =>
      rw [countAttrs_cons, if_pos hc, List.drop_succ_cons]
      rw [wfChildren, if_pos hc, Bool.and_eq_true] at h
      exact wfChildren_drop rest h.2
    | false =>
      rw [countAttrs_cons, if_neg (by simp [hc]), List.drop_zero]
      rw [wfChildren, if_neg (by simp [hc])] at h
      rw [wfElems]
      exact h

theorem serializeSkip_drop : ∀ (k : Nat) (ns : List (Text × BmlNode)) (ind : BmlIndent),
    serializeSkip k ns ind = serializeSkip 0 (ns.drop k) ind
  | 0, _, _ => by rw [List.drop_zero]
  | _ + 1, [], _ => rfl
  | k + 1, p :: rest, ind => by
    rw [List.drop_succ_cons]
    rw [show serializeSkip (k + 1) (p :: rest) ind = serializeSkip k rest ind from rfl]
    exact serializeSkip_drop k rest ind

mutual

theorem serialize_wfElem_ends : ∀ (nm : Text) (c : BmlNode) (ind : BmlIndent),
    wfElem nm c = true → (serialize c nm ind).getLast? = some '\n'
  | nm, .mk .Elem d ns, ind, h => by
    rw [serialize, serializeSkip_drop]
    rw [wfElem, Bool.and_eq_true, Bool.and_eq_true] at h
    obtain ⟨⟨-, -⟩, hch⟩ := h
    match hrest : ns.drop (countAttrs ns) with
    | [] =>
      rw [show serializeSkip 0 [] ind.next = [] from rfl, List.append_nil]
      split
      · next hif =>
        exact getLast?_append_right _ (getLast?_concat_nl _)
      · next hif =>
        match hls : strLines d with
        | [] => simp
        | l0 :: lt =>
          refine getLast?_append_right _ (getLast?_append_right _ (flatten_ends_nl _ (by simp) ?_))
          intro x hx
          rw [List.mem_map] at hx
          obtain ⟨l, -, rfl⟩ := hx
          exact getLast?_concat_nl _
    | (nm2, c2) :: rest2 =>
      refine getLast?_append_right _ ?_
      have hwf : wfElems ((nm2, c2) :: rest2) = true := hrest ▸ wfChildren_drop ns hch
      exact serializeSkip0_wfElems_ends (nm2, c2) rest2 ind.next hwf
termination_by nm c ind h => sizeOf c
decreasing_by
  have hle := sizeOf_drop_le (countAttrs ns) ns
  rw [hrest] at hle
  simp at hle ⊢
  omega

theorem serializeSkip0_wfElems_ends : ∀ (p : Text × BmlNode) (rest : List (Text × BmlNode))
    (ind : BmlIndent), wfElems (p :: rest) = true →
    (serializeSkip 0 (p :: rest) ind).getLast? = some '\n'
  | (nm, c), [], ind, h => by
    rw [wfElems, Bool.and_eq_true] at h
    rw [show serializeSkip 0 ((nm, c) :: []) ind
        = serialize c nm ind ++ serializeSkip 0 [] ind from rfl]
    rw [show serializeSkip 0 ([] : List (Text × BmlNode)) ind = [] from rfl, List.append_nil]
    exact serialize_wfElem_ends nm c ind h.1
  | (nm, c), p2 :: rest2, ind, h => by
    rw [wfElems, Bool.and_eq_true] at h
    rw [show serializeSkip 0 ((nm, c) :: p2 :: rest2) ind
        = serialize c nm ind ++ serializeSkip 0 (p2 :: rest2) ind from rfl]
    exact getLast?_append_right _ (serializeSkip0_wfElems_ends p2 rest2 ind h.2)
termination_by p rest ind h => sizeOf p + sizeOf rest
decreasing_by
  · simp
    omega
  · simp
    omega

end

/-- Claim C7: a root serializes as its children joined by one extra newline
(exactly one blank line between consecutive children, since every
well-formed child's rendering ends in a newline), with no trailing
separator; the passed name and indent are ignored — the root's own key is
never printed and its stored indent policy is used. -/
theorem claim_C7_root_rendering :
    (∀ (ri : BmlIndent) (d : Text) (ns : List (Text × BmlNode)) (name : Text)
       (ind : BmlIndent),
       serialize (.mk (.Root ri) d ns) name ind
         = joinNl (ns.map (fun p => serialize p.2 p.1 ri))) ∧
    (∀ (nm : Text) (c : BmlNode) (ind : BmlIndent), wfElem nm c = true →
       (serialize c nm ind).getLast? = some '\n') := by
  constructor
  · intro ri d ns name ind
    rw [show serialize (.mk (.Root ri) d ns) name ind = serializeRoot ns ri from rfl]
    exact serializeRoot_eq_joinNl ns ri
  · exact fun nm c ind h => serialize_wfElem_ends nm c ind h

/-- Witness for C7: a two-child root with its own indent policy, a junk
name and a junk data field, plus a well-formed child ending in a
newline. -/
theorem claim_C7_witness :
    serialize (.mk (.Root ⟨['\t'], 1⟩) ['q'] [(['a'], BmlNode.elem), (['b'], BmlNode.elem)])
        ['k'] BmlIndent.default
      = joinNl [serialize BmlNode.elem ['a'] ⟨['\t'], 1⟩,
          serialize BmlNode.elem ['b'] ⟨['\t'], 1⟩] ∧
    (serialize BmlNode.elem ['a'] BmlIndent.default).getLast? = some '\n' :=
  ⟨claim_C7_root_rendering.1 ⟨['\t'], 1⟩ ['q'] [(['a'], BmlNode.elem), (['b'], BmlNode.elem)]
      ['k'] BmlIndent.default,
    claim_C7_root_rendering.2 ['a'] BmlNode.elem BmlIndent.default (by decide)⟩

theorem kind_pushData (a : BmlNode) (s : Text) : (a.pushData s).kind = a.kind := by
  cases a
  rfl

theorem kind_setKind (a : BmlNode) (k : BmlKind) : (a.setKind k).kind = k := by
  cases a
  rfl

theorem attrDataSteps_kind : ∀ (inner : List BmlDataInner) (a : BmlNode),
    (attrDataSteps inner a).kind
      = if inner.any BmlDataInner.space then .Attr false else a.kind
  | [], a => by simp [attrDataSteps]
  | d :: rest, a => by
    rw [attrDataSteps, attrDataSteps_kind rest, List.any_cons]
    cases hd : d.space with
    | true => simp [kind_pushData, kind_setKind]
    | false => simp [kind_pushData]

theorem attrSteps_kind : ∀ (ps : List BmlProd) (st : Text × BmlNode),
    (attrSteps ps st).2.kind = if hasSpaceData ps then .Attr false else st.2.kind
  | [], st => by simp [attrSteps, hasSpaceData]
  | .nameP s :: rest, (n, a) => by
    rw [show attrSteps (.nameP s :: rest) (n, a) = attrSteps rest (s, a) from rfl,
      attrSteps_kind rest]
    rw [show hasSpaceData (.nameP s :: rest) = hasSpaceData rest from by
      simp [hasSpaceData]]
  | .dataP inner :: rest, (n, a) => by
    rw [show attrSteps (.dataP inner :: rest) (n, a)
        = attrSteps rest (n, attrDataSteps inner a) from rfl,
      attrSteps_kind rest]
    rw [show hasSpaceData (.dataP inner :: rest)
        = (inner.any BmlDataInner.space || hasSpaceData rest) from by
      simp [hasSpaceData]]
    show _ = if (inner.any BmlDataInner.space || hasSpaceData rest) = true
      then BmlKind.Attr false else a.kind
    rw [attrDataSteps_kind]
    cases h1 : hasSpaceData rest <;> cases h2 : inner.any BmlDataInner.space <;> simp
  | .attrP inner :: rest, (n, a) => by
    rw [show attrSteps (.attrP inner :: rest) (n, a) = attrSteps rest (n, a) from rfl,
      attrSteps_kind rest]
    rw [show hasSpaceData (.attrP inner :: rest) = hasSpaceData rest from by
      simp [hasSpaceData]]
  | .nodeP inner :: rest, (n, a) => by
    rw [show attrSteps (.nodeP inner :: rest) (n, a) = attrSteps rest (n, a) from rfl,
      attrSteps_kind rest]
    rw [show hasSpaceData (.nodeP inner :: rest) = hasSpaceData rest from by
      simp [hasSpaceData]]

/-- Claim C8: serializing an attribute writes a space then its name; with a
data line it writes `=` and the value double-quoted exactly when the quote
flag is set, bare otherwise; with no data line it is just the bare name
with no `=`. On the parsing side, the attribute built by the `attr` arm of
the builder carries `quote = false` exactly when some data production used
the unquoted space-delimited form. -/
theorem claim_C8_attr_round :
    (∀ (q : Bool) (d : Text) (ns : List (Text × BmlNode)) (name : Text) (ind : BmlIndent),
       serialize (.mk (.Attr q) d ns) name ind
         = [' '] ++ name ++
           (match strLines d with
            | [] => []
            | v :: _ => if q then ['=', '"'] ++ v ++ ['"'] else ['='] ++ v)) ∧
    (∀ ps : List BmlProd,
       (parse_attr ps).2.kind = .Attr false ↔ hasSpaceData ps = true) := by
  constructor
  · intro q d ns name ind
    rfl
  · intro ps
    unfold parse_attr
    rw [attrSteps_kind]
    cases h : hasSpaceData ps with
    | true => simp
    | false =>
      rw [if_neg (by simp)]
      simp [BmlNode.attr, BmlNode.kind]

/-- Witness for C8: a quoted attribute, a bare-valued attribute, a
valueless attribute, and the quote flag after parsing a space-delimited
value. -/
theorem claim_C8_witness :
    serialize (.mk (.Attr false) ['v', '\n'] []) ['a'] BmlIndent.default
      = [' '] ++ ['a'] ++
        (match strLines ['v', '\n'] with
         | [] => []
         | v :: _ => if false then ['=', '"'] ++ v ++ ['"'] else ['='] ++ v) ∧
    ((parse_attr [.nameP ['a'], .dataP [⟨true, ['v']⟩]]).2.kind = .Attr false
      ↔ hasSpaceData [.nameP ['a'], .dataP [⟨true, ['v']⟩]] = true) :=
  ⟨claim_C8_attr_round.1 false ['v', '\n'] [] ['a'] BmlIndent.default,
    claim_C8_attr_round.2 [.nameP ['a'], .dataP [⟨true, ['v']⟩]]⟩


theorem takeWhile_append_stop (p : Char → Bool) : ∀ (a b : Text), a.all p = true →
    (b = [] ∨ p b.headI = false) →
    (a ++ b).takeWhile p = a ∧ (a ++ b).dropWhile p = b
  | [], [], _, _ => ⟨rfl, rfl⟩
  | [], c :: t, _, hb => by
    have hc : p c = false := by
      match hb with
      | Or.inr h => exact h
    rw [List.nil_append]
    rw [List.takeWhile_cons, List.dropWhile_cons, hc]
    simp
  | c :: a', b, ha, hb => by
    rw [List.all_cons, Bool.and_eq_true] at ha
    have ih := takeWhile_append_stop p a' b ha.2 hb
    rw [List.cons_append, List.takeWhile_cons, List.dropWhile_cons, ha.1]
    simp only [if_pos rfl, ih.1, ih.2]
    exact ⟨rfl, rfl⟩

theorem spI_zero : spI 0 = [] := rfl

theorem spI_succ (k : Nat) : spI (k + 1) = [' ', ' '] ++ spI k := rfl

theorem spI_length : ∀ k : Nat, (spI k).length = 2 * k
  | 0 => rfl
  | k + 1 => by
    rw [spI_succ, List.length_append, spI_length k]
    simp only [List.length_cons, List.length_nil]
    omega

theorem spI_all_ws : ∀ k : Nat, (spI k).all isWsChar = true
  | 0 => rfl
  | k + 1 => by
    rw [spI_succ]
    simp only [List.all_append, spI_all_ws k]
    rfl

theorem spI_add : ∀ a b : Nat, spI (a + b) = spI a ++ spI b
  | 0, b => by simp [spI_zero]
  | a + 1, b => by
    rw [show a + 1 + b = (a + b) + 1 from by omega, spI_succ, spI_add a b, spI_succ]
    simp

theorem spI_inj {a b : Nat} (h : spI a = spI b) : a = b := by
  have := congrArg List.length h
  rw [spI_length, spI_length] at this
  omega

theorem spI_isPrefixOf_of_le {a b : Nat} (h : a ≤ b) :
    (spI a).isPrefixOf (spI b) = true := by
  rw [show b = a + (b - a) from by omega, spI_add, List.isPrefixOf_iff_prefix]
  exact List.prefix_append _ _

theorem spI_not_isPrefixOf {a b : Nat} (h : b < a) :
    (spI a).isPrefixOf (spI b) = false := by
  cases hp : (spI a).isPrefixOf (spI b) with
  | false => rfl
  | true =>
    have := (List.isPrefixOf_iff_prefix.mp hp).length_le
    rw [spI_length, spI_length] at this
    omega

theorem spI_ne_of_ne {a b : Nat} (h : a ≠ b) : spI a ≠ spI b :=
  fun hh => h (spI_inj hh)

theorem toRawLines_cons_line {l : Text} (rest : Text) (h : '\n' ∉ l) :
    toRawLines (l ++ '\n' :: rest) = l :: toRawLines rest := by
  unfold toRawLines
  rw [splitNlCore_append_line l rest h]
  have hne := splitNlCore_ne_nil rest
  match hs : splitNlCore rest with
  | [] => exact absurd hs hne
  | s :: ss =>
    show (if (l :: s :: ss).getLast? = some [] then (l :: s :: ss).dropLast else l :: s :: ss)
        = l :: (if (s :: ss).getLast? = some [] then (s :: ss).dropLast else s :: ss)
    rw [show (l :: s :: ss).getLast? = (s :: ss).getLast? from rfl]
    split
    · rfl
    · rfl

theorem validLine_no_cr_any {l : Text} (h : validLine l = true) : l.any (· = '\r') = false := by
  rw [← Bool.not_eq_true]
  intro hh
  rw [List.any_eq_true] at hh
  obtain ⟨c, hc, he⟩ := hh
  rw [decide_eq_true_iff] at he
  exact validLine_no_cr h (he ▸ hc)

theorem lexesTo_nil : lexesTo [] [] := rfl

theorem lexesTo_blank {rest : Text} {ls : List BmlLine} (h : lexesTo rest ls) :
    lexesTo ('\n' :: rest) ls := by
  unfold lexesTo at h ⊢
  rw [show ('\n' :: rest) = [] ++ '\n' :: rest from rfl,
    toRawLines_cons_line rest (by simp)]
  rw [lexLines, show lexLine [] = .ok none from rfl, h]

theorem lexesTo_line {ind body : Text} {rest : Text} {ls : List BmlLine}
    (hind : ind.all isWsChar = true) (hbody : body ≠ [])
    (hhead : isWsChar body.headI = false) (hcom : body.take 2 ≠ ['/', '/'])
    (hval : validLine (ind ++ body) = true) (h : lexesTo rest ls) :
    lexesTo (ind ++ (body ++ '\n' :: rest)) (⟨ind, body⟩ :: ls) := by
  unfold lexesTo at h ⊢
  rw [← List.append_assoc, toRawLines_cons_line rest (validLine_no_nl hval)]
  rw [lexLines]
  rw [show lexLine (ind ++ body) = .ok (some ⟨ind, body⟩) from by
    simp only [lexLine]
    rw [stripCr_of_validLine hval, validLine_no_cr_any hval]
    have hsplit := takeWhile_append_stop isWsChar ind body hind (Or.inr hhead)
    rw [hsplit.1, hsplit.2]
    simp only [Bool.false_eq_true, if_false]
    rw [if_neg hbody, if_neg hcom]]
  rw [h]

theorem validName_all {nm : Text} (h : validName nm = true) : nm.all nameChar = true := by
  unfold validName at h
  exact (Bool.and_eq_true _ _ ▸ h).2

theorem validName_ne_nil {nm : Text} (h : validName nm = true) : nm ≠ [] := by
  unfold validName at h
  have := (Bool.and_eq_true _ _ ▸ h).1
  simpa using this

theorem nameChar_not_ws {c : Char} (h : nameChar c = true) : isWsChar c = false := by
  unfold nameChar at h
  unfold isWsChar
  rcases Bool.or_eq_true _ _ |>.mp h with h1 | h1
  · rcases Bool.or_eq_true _ _ |>.mp h1 with h2 | h2
    · cases hc : (c = ' ' || c = '\t') with
      | false => rfl
      | true =>
        exfalso
        rcases Bool.or_eq_true _ _ |>.mp hc with h3 | h3 <;>
          (rw [decide_eq_true_iff] at h3; subst h3; simp [Char.isAlphanum, Char.isAlpha,
            Char.isUpper, Char.isLower, Char.isDigit] at h2)
    · cases hc : (c = ' ' || c = '\t') with
      | false => rfl
      | true =>
        exfalso
        rcases Bool.or_eq_true _ _ |>.mp hc with h3 | h3 <;>
          (rw [decide_eq_true_iff] at h3; subst h3; simp at h2)
  · cases hc : (c = ' ' || c = '\t') with
    | false => rfl
    | true =>
      exfalso
      rcases Bool.or_eq_true _ _ |>.mp hc with h3 | h3 <;>
        (rw [decide_eq_true_iff] at h3; subst h3; simp at h1)

theorem headI_not_nameChar_of_ws {b : Text} (hb : b = [] ∨ isWsChar b.headI = true) :
    b = [] ∨ nameChar b.headI = false := by
  rcases hb with h | h
  · exact Or.inl h
  · right
    cases hn : nameChar b.headI with
    | false => rfl
    | true => rw [nameChar_not_ws hn] at h; exact absurd h (by simp)

theorem parseOneAttr_bare {anm restT : Text} (hnm : validName anm = true)
    (hr : restT = [] ∨ isWsChar restT.headI = true) :
    parseOneAttr (anm ++ restT) = .ok (.attrP [.nameP anm], restT) := by
  have hspan := takeWhile_append_stop nameChar anm restT (validName_all hnm)
    (headI_not_nameChar_of_ws hr)
  simp only [parseOneAttr]
  rw [hspan.1, hspan.2, if_neg (validName_ne_nil hnm)]
  rcases hr with h | h
  · subst h
    rfl
  · match restT, h with
    | c :: r2, h =>
      have hcq : ¬ c = '=' := by
        intro he
        subst he
        simp [isWsChar] at h
      rw [show (c :: r2).headI = c from rfl] at h
      simp only [hcq, if_false, h, if_true]

theorem parseOneAttr_quoted {anm v restT : Text} (hnm : validName anm = true)
    (hv : v.all quotedValueChar = true)
    (hr : restT = [] ∨ isWsChar restT.headI = true) :
    parseOneAttr (anm ++ ('=' :: '"' :: (v ++ '"' :: restT)))
      = .ok (.attrP [.nameP anm, .dataP [⟨false, v⟩]], restT) := by
  have hveq : ∀ c ∈ v, (c ≠ '"' : Bool) = true := by
    intro c hc
    have := List.all_eq_true.mp hv c hc
    unfold quotedValueChar at this
    simp only [Bool.and_eq_true] at this
    simpa using this.1.1
  have hspan := takeWhile_append_stop nameChar anm ('=' :: '"' :: (v ++ '"' :: restT))
    (validName_all hnm) (Or.inr (by simp [nameChar]))
  have hqspan := takeWhile_append_stop (· ≠ '"') v ('"' :: restT)
    (List.all_eq_true.mpr hveq) (Or.inr (by simp))
  simp only [parseOneAttr]
  rw [hspan.1, hspan.2, if_neg (validName_ne_nil hnm)]
  simp only [if_pos rfl]
  rw [hqspan.2]
  simp only []
  rw [if_pos hr, hqspan.1]
  simp

theorem parseOneAttr_unquoted {anm v restT : Text} (hnm : validName anm = true)
    (hvne : v ≠ []) (hv : v.all spaceValueChar = true)
    (hr : restT = [] ∨ isWsChar restT.headI = true) :
    parseOneAttr (anm ++ ('=' :: (v ++ restT)))
      = .ok (.attrP [.nameP anm, .dataP [⟨true, v⟩]], restT) := by
  have hvbare : v.all bareValueChar = true := by
    rw [List.all_eq_true] at hv ⊢
    intro c hc
    have := hv c hc
    unfold spaceValueChar at this
    exact (Bool.and_eq_true _ _ ▸ (Bool.and_eq_true _ _ ▸ this).1).1
  have hstop : restT = [] ∨ bareValueChar restT.headI = false := by
    rcases hr with h | h
    · exact Or.inl h
    · right
      unfold bareValueChar
      rw [h]
      rfl
  have hspan := takeWhile_append_stop nameChar anm ('=' :: (v ++ restT))
    (validName_all hnm) (Or.inr (by simp [nameChar]))
  have hbspan := takeWhile_append_stop bareValueChar v restT hvbare hstop
  simp only [parseOneAttr]
  rw [hspan.1, hspan.2, if_neg (validName_ne_nil hnm)]
  simp only [if_pos rfl]
  match hveq : v, hvne with
  | c2 :: v', hne' =>
    have hc2 : ¬ c2 = '"' := by
      have := List.all_eq_true.mp hv c2 (by simp)
      unfold spaceValueChar bareValueChar at this
      intro he
      subst he
      simp at this
    rw [show (c2 :: v') ++ restT = c2 :: (v' ++ restT) from rfl]
    simp only [hc2, if_false]
    rw [show c2 :: (v' ++ restT) = (c2 :: v') ++ restT from rfl]
    rw [hbspan.1, hbspan.2]
    rw [if_neg hne', if_pos hr]
    simp

theorem validLine_of_quoted {v : Text} (h : v.all quotedValueChar = true) :
    validLine v = true := by
  unfold validLine
  rw [List.all_eq_true] at h ⊢
  intro c hc
  have := h c hc
  unfold quotedValueChar at this
  simp only [Bool.and_eq_true] at this ⊢
  exact ⟨this.1.2, this.2⟩

theorem validLine_of_space {v : Text} (h : v.all spaceValueChar = true) :
    validLine v = true := by
  unfold validLine
  rw [List.all_eq_true] at h ⊢
  intro c hc
  have := h c hc
  unfold spaceValueChar at this
  simp only [Bool.and_eq_true] at this ⊢
  exact ⟨this.1.2, this.2⟩

theorem joinLines_single (v : Text) : joinLines [v] = v ++ ['\n'] := by
  simp [joinLines]

theorem strLines_single {v : Text} (h : validLine v = true) :
    strLines (v ++ ['\n']) = [v] := by
  rw [← joinLines_single]
  exact strLines_joinLines [v] (by simpa using h)

theorem dropWhile_of_head_false {p : Char → Bool} : ∀ {x : Text},
    p x.headI = false → x.dropWhile p = x
  | [], _ => rfl
  | c :: t, h => by
    rw [show (c :: t).headI = c from rfl] at h
    rw [List.dropWhile_cons, h]
    simp

theorem eq_dropLast_concat_of_getLast {d : Text} {c : Char}
    (h : d.getLast? = some c) : d = d.dropLast ++ [c] := by
  have hne : d ≠ [] := by
    intro he
    rw [he] at h
    exact Option.noConfusion h
  have hg : d.getLast hne = c := by
    rw [List.getLast?_eq_getLast d hne, Option.some.injEq] at h
    exact h
  conv_lhs => rw [← List.dropLast_append_getLast hne, hg]

/-- Destructured form of a well-formed attribute node. -/
theorem wfAttrNode_cases {nm : Text} {a : BmlNode} (h : wfAttrNode nm a = true) :
    validName nm = true ∧
    (a = .mk (.Attr true) [] [] ∨
     (∃ v, a = .mk (.Attr true) (v ++ ['\n']) [] ∧ v.all quotedValueChar = true) ∨
     (∃ v, a = .mk (.Attr false) (v ++ ['\n']) [] ∧ v ≠ [] ∧ v.all spaceValueChar = true)) := by
  match a, h with
  | .mk (.Attr true) d ns, h =>
    unfold wfAttrNode at h
    simp only [Bool.and_eq_true, Bool.or_eq_true] at h
    obtain ⟨⟨hnm, hns⟩, hd⟩ := h
    have hns' : ns = [] := by simpa using hns
    subst hns'
    refine ⟨hnm, ?_⟩
    rcases hd with hd | hd
    · left
      rw [show d = [] from by simpa using hd]
    · right
      left
      refine ⟨d.dropLast, ?_, hd.2⟩
      have hlast : d.getLast? = some '\n' := by
        have := hd.1
        simpa using this
      rw [← eq_dropLast_concat_of_getLast hlast]
  | .mk (.Attr false) d ns, h =>
    unfold wfAttrNode at h
    simp only [Bool.and_eq_true] at h
    obtain ⟨⟨hnm, hns⟩, hrest⟩ := h
    have hns' : ns = [] := by simpa using hns
    subst hns'
    obtain ⟨⟨hlast, hne'⟩, hsp⟩ := hrest
    refine ⟨hnm, Or.inr (Or.inr ⟨d.dropLast, ?_, by simpa using hne', hsp⟩)⟩
    have hlast2 : d.getLast? = some '\n' := by simpa using hlast
    rw [← eq_dropLast_concat_of_getLast hlast2]

theorem validName_headI {nm : Text} (h : validName nm = true) :
    nameChar nm.headI = true := by
  match nm, validName_ne_nil h with
  | c :: t, _ =>
    have := List.all_eq_true.mp (validName_all h) c (by simp)
    simpa using this

theorem serialize_attr_eq (q : Bool) (d : Text) (ns : List (Text × BmlNode))
    (nm : Text) (ind : BmlIndent) :
    serialize (.mk (.Attr q) d ns) nm ind
      = [' '] ++ nm ++
        (match strLines d with
         | [] => []
         | v :: _ => if q then ['=', '"'] ++ v ++ ['"'] else ['='] ++ v) := rfl

theorem wfAttr_parse {nm : Text} {a : BmlNode} (ind : BmlIndent) {restT : Text}
    (h : wfAttrNode nm a = true) (hrest : restT = [] ∨ isWsChar restT.headI = true) :
    ∃ X inner,
      serialize a nm ind = ' ' :: X ∧
      nameChar X.headI = true ∧
      X ≠ [] ∧
      parseOneAttr (X ++ restT) = .ok (.attrP inner, restT) ∧
      parse_attr inner = (nm, a) := by
  obtain ⟨hnm, hc⟩ := wfAttrNode_cases h
  have hnmne := validName_ne_nil hnm
  rcases hc with ha | ⟨v, ha, hv⟩ | ⟨v, ha, hvne, hv⟩
  · subst ha
    refine ⟨nm, [.nameP nm], ?_, validName_headI hnm, hnmne, ?_, ?_⟩
    · rw [serialize_attr_eq, strLines_nil]
      simp
    · exact parseOneAttr_bare hnm hrest
    · rfl
  · subst ha
    refine ⟨nm ++ ('=' :: '"' :: (v ++ ['"'])), [.nameP nm, .dataP [⟨false, v⟩]],
      ?_, ?_, by simp, ?_, ?_⟩
    · rw [serialize_attr_eq, strLines_single (validLine_of_quoted hv)]
      simp
    · match nm, hnmne with
      | c :: t, _ =>
        rw [show ((c :: t) ++ ('=' :: '"' :: (v ++ ['"']))).headI = c from rfl]
        have := validName_headI hnm
        simpa using this
    · rw [show (nm ++ ('=' :: '"' :: (v ++ ['"']))) ++ restT
          = nm ++ ('=' :: '"' :: (v ++ '"' :: restT)) from by simp]
      exact parseOneAttr_quoted hnm hv hrest
    · rfl
  · subst ha
    refine ⟨nm ++ ('=' :: v), [.nameP nm, .dataP [⟨true, v⟩]],
      ?_, ?_, by simp, ?_, ?_⟩
    · rw [serialize_attr_eq, strLines_single (validLine_of_space hv)]
      simp
    · match nm, hnmne with
      | c :: t, _ =>
        rw [show ((c :: t) ++ ('=' :: v)).headI = c from rfl]
        have := validName_headI hnm
        simpa using this
    · rw [show (nm ++ ('=' :: v)) ++ restT = nm ++ ('=' :: (v ++ restT)) from by simp]
      exact parseOneAttr_unquoted hnm hvne hv hrest
    · rfl

theorem parseSteps_nil (st : Text × BmlNode) : parseSteps [] st = st := by
  simp [parseSteps]

theorem parseSteps_nameP (s : Text) (rest : List BmlProd) (n : Text) (node : BmlNode) :
    parseSteps (.nameP s :: rest) (n, node) = parseSteps rest (s, node) := by
  simp [parseSteps]

theorem parseSteps_dataP (inner : List BmlDataInner) (rest : List BmlProd)
    (n : Text) (node : BmlNode) :
    parseSteps (.dataP inner :: rest) (n, node)
      = parseSteps rest (n, node.pushData (dataInnerStr inner)) := by
  simp [parseSteps]

theorem parseSteps_attrP (inner : List BmlProd) (rest : List BmlProd)
    (n : Text) (node : BmlNode) :
    parseSteps (.attrP inner :: rest) (n, node)
      = parseSteps rest (n, node.append (parse_attr inner)) := by
  simp [parseSteps]

theorem parseSteps_nodeP (inner : List BmlProd) (rest : List BmlProd)
    (n : Text) (node : BmlNode) :
    parseSteps (.nodeP inner :: rest) (n, node)
      = parseSteps rest (n, node.append (parseSteps inner ([], BmlNode.elem))) := by
  conv_lhs => rw [parseSteps]

theorem headI_append_of_ne_nil {X Y : Text} (h : X ≠ []) : (X ++ Y).headI = X.headI := by
  match X, h with
  | c :: t, _ => rfl

theorem parseAttrs_round : ∀ (ns : List (Text × BmlNode)) (ind : BmlIndent),
    wfChildren ns = true →
    ∃ evts,
      (serializeAttrs ns ind = [] ∨ isWsChar (serializeAttrs ns ind).headI = true) ∧
      (∀ fuel, (serializeAttrs ns ind).length < fuel →
        parseAttrs fuel (serializeAttrs ns ind) = .ok evts) ∧
      (∀ (X : List BmlProd) (nm0 : Text) (k0 : BmlKind) (d0 : Text)
         (ns0 : List (Text × BmlNode)),
        parseSteps (evts ++ X) (nm0, .mk k0 d0 ns0)
          = parseSteps X (nm0, .mk k0 d0 (ns0 ++ ns.take (countAttrs ns))))
  | [], ind, _ => by
    refine ⟨[], Or.inl rfl, ?_, ?_⟩
    · intro fuel hf
      match fuel, hf with
      | f + 1, _ => rw [parseAttrs]; rfl
    · intro X nm0 k0 d0 ns0
      simp
  | (nm, c) :: rest, ind, h => by
    cases hc : isAttrNode c with
    | false =>
      have hser : serializeAttrs ((nm, c) :: rest) ind = [] := by
        rw [show serializeAttrs ((nm, c) :: rest) ind
            = if isAttrNode c then serialize c nm ind ++ serializeAttrs rest ind else []
          from rfl, hc]
        simp
      refine ⟨[], Or.inl hser, ?_, ?_⟩
      · intro fuel hf
        rw [hser] at hf ⊢
        match fuel, hf with
        | f + 1, _ => rw [parseAttrs]; rfl
      · intro X nm0 k0 d0 ns0
        rw [countAttrs_cons, if_neg (by simp [hc])]
        simp
    | true =>
      rw [wfChildren, if_pos hc, Bool.and_eq_true] at h
      obtain ⟨evts', hhead', hparse', hbuild'⟩ := parseAttrs_round rest ind h.2
      obtain ⟨X, inner, hser, hXname, hXne, hone, hpa⟩ := wfAttr_parse ind h.1 hhead'
      have hserc : serializeAttrs ((nm, c) :: rest) ind
          = ' ' :: (X ++ serializeAttrs rest ind) := by
        rw [show serializeAttrs ((nm, c) :: rest) ind
            = if isAttrNode c then serialize c nm ind ++ serializeAttrs rest ind else []
          from rfl, hc, hser]
        simp
      refine ⟨.attrP inner :: evts', Or.inr (by rw [hserc]; rfl), ?_, ?_⟩
      · intro fuel hf
        rw [hserc] at hf ⊢
        match fuel, hf with
        | f + 1, hf =>
          rw [parseAttrs]
          rw [show (' ' :: (X ++ serializeAttrs rest ind)).dropWhile isWsChar
              = (X ++ serializeAttrs rest ind).dropWhile isWsChar from by
            rw [List.dropWhile_cons]
            simp [isWsChar]]
          rw [dropWhile_of_head_false (by
            rw [headI_append_of_ne_nil hXne]
            exact nameChar_not_ws hXname)]
          rw [if_neg (by
            intro he
            exact hXne (List.append_eq_nil.mp he).1)]
          rw [hone]
          simp only []
          rw [hparse' f (by
            simp only [List.length_cons, List.length_append] at hf
            omega)]
      · intro X0 nm0 k0 d0 ns0
        rw [show (BmlProd.attrP inner :: evts') ++ X0
            = BmlProd.attrP inner :: (evts' ++ X0) from rfl]
        rw [parseSteps_attrP]
        rw [hpa]
        rw [show (BmlNode.mk k0 d0 ns0).append (nm, c) = .mk k0 d0 (ns0 ++ [(nm, c)]) from rfl]
        rw [hbuild' X0 nm0 k0 d0 (ns0 ++ [(nm, c)])]
        rw [countAttrs_cons, if_pos hc]
        rw [show ((nm, c) :: rest).take (countAttrs rest + 1)
            = (nm, c) :: rest.take (countAttrs rest) from rfl]
        simp

theorem parseHeader_round_attrs (nm : Text) (ns : List (Text × BmlNode)) (ind : BmlIndent)
    (hnm : validName nm = true) (hch : wfChildren ns = true) :
    ∃ evts, parseHeader (nm ++ serializeAttrs ns ind) = .ok (nm, evts, none) ∧
      (∀ (X : List BmlProd) (nm0 : Text) (k0 : BmlKind) (d0 : Text)
         (ns0 : List (Text × BmlNode)),
        parseSteps (evts ++ X) (nm0, .mk k0 d0 ns0)
          = parseSteps X (nm0, .mk k0 d0 (ns0 ++ ns.take (countAttrs ns)))) := by
  obtain ⟨evts, hhead, hparse, hbuild⟩ := parseAttrs_round ns ind hch
  refine ⟨evts, ?_, hbuild⟩
  have hspan := takeWhile_append_stop nameChar nm (serializeAttrs ns ind)
    (validName_all hnm) (headI_not_nameChar_of_ws hhead)
  simp only [parseHeader]
  rw [hspan.1, hspan.2, if_neg (validName_ne_nil hnm)]
  rcases hhead with h | h
  · have he : evts = [] := by
      have h1 := hparse 1 (by rw [h]; simp)
      rw [h] at h1
      rw [show parseAttrs 1 [] = .ok [] from rfl] at h1
      exact (Except.ok.injEq _ _ ▸ h1).symm
    rw [h, he]
  · match hr : serializeAttrs ns ind with
    | [] =>
      rw [hr] at h
      simp [isWsChar] at h
    | c :: r2 =>
      rw [hr] at h
      rw [show (c :: r2).headI = c from rfl] at h
      have hcc : ¬ c = ':' := by
        intro he
        subst he
        simp [isWsChar] at h
      simp only [hcc, if_false, h, if_true]
      rw [← hr]
      rw [hparse ((serializeAttrs ns ind).length + 1) (Nat.lt_succ_self _)]

theorem parseHeader_round_inline (nm v : Text) (hnm : validName nm = true) :
    parseHeader (nm ++ (':' :: ' ' :: v)) = .ok (nm, [], some v) := by
  have hspan := takeWhile_append_stop nameChar nm (':' :: ' ' :: v)
    (validName_all hnm) (Or.inr (by simp [nameChar]))
  simp only [parseHeader]
  rw [hspan.1, hspan.2, if_neg (validName_ne_nil hnm)]
  simp only [if_pos rfl]
  rfl

theorem indAt_render (k : Nat) : (indAt k).render = spI k := rfl

theorem indAt_next (k : Nat) : (indAt k).next = indAt (k + 1) := rfl

theorem parseSteps_dataLines : ∀ (ls : List Text) (X : List BmlProd) (n0 : Text)
    (k0 : BmlKind) (d0 : Text) (ns0 : List (Text × BmlNode)),
    parseSteps (ls.map dataEvt ++ X) (n0, .mk k0 d0 ns0)
      = parseSteps X (n0, .mk k0 (d0 ++ joinLines ls) ns0)
  | [], X, n0, k0, d0, ns0 => by simp [joinLines]
  | l :: t, X, n0, k0, d0, ns0 => by
    rw [List.map_cons, List.cons_append,
      show dataEvt l = BmlProd.dataP [⟨false, l⟩] from rfl, parseSteps_dataP,
      show (BmlNode.mk k0 d0 ns0).pushData (dataInnerStr [⟨false, l⟩])
          = BmlNode.mk k0 (d0 ++ (l ++ ['\n'])) ns0 from by
        simp [BmlNode.pushData, dataInnerStr],
      parseSteps_dataLines t X n0 k0 (d0 ++ (l ++ ['\n'])) ns0,
      show d0 ++ (l ++ ['\n']) ++ joinLines t = d0 ++ joinLines (l :: t) from by
        rw [joinLines_cons]; simp]

theorem parseOK_stop (k : Nat) (restL : List BmlLine) (ad : Bool)
    (h : headLevelLt k restL) : parseOK restL (spI k) ad [] restL := by
  intro fuel hfuel
  rcases h with h | ⟨m, b, hm, hhd⟩
  · subst h
    match fuel, hfuel with
    | f + 1, _ => rfl
  · match restL, hhd with
    | ln :: rest, hhd =>
      rw [List.head?_cons, Option.some.injEq] at hhd
      subst hhd
      match fuel, hfuel with
      | f + 1, _ =>
        show parseItems (f + 1) ((⟨spI m, b⟩ : BmlLine) :: rest) (spI k) ad
            = .ok ([], ⟨spI m, b⟩ :: rest)
        simp only [parseItems]
        rw [if_neg (by exact spI_ne_of_ne (Nat.ne_of_lt hm)),
          if_neg (by rw [spI_not_isPrefixOf hm]; simp)]

theorem parseOK_dataLines : ∀ (ls : List Text) (restL : List BmlLine) (k : Nat)
    (evts : List BmlProd) (rem : List BmlLine),
    parseOK restL (spI k) true evts rem →
    parseOK (ls.map (fun l => ⟨spI k, ':' :: l⟩) ++ restL) (spI k) true
      (ls.map dataEvt ++ evts) rem
  | [], restL, k, evts, rem, h => by simpa using h
  | l :: t, restL, k, evts, rem, h => by
    intro fuel hfuel
    match fuel, hfuel with
    | f + 1, hfuel =>
      have ih := parseOK_dataLines t restL k evts rem h f (by
        simp only [List.length_append, List.length_map, List.length_cons] at hfuel ⊢
        omega)
      simp only [List.map_cons, List.cons_append]
      simp only [parseItems]
      rw [ih]
      simp

theorem parseSteps_nodePEvts {ps : List BmlProd} {cs : List (Text × BmlNode)}
    (h : NodePEvts ps cs) : ∀ (X : List BmlProd) (n0 : Text) (k0 : BmlKind)
    (d0 : Text) (ns0 : List (Text × BmlNode)),
    parseSteps (ps ++ X) (n0, .mk k0 d0 ns0)
      = parseSteps X (n0, .mk k0 d0 (ns0 ++ cs)) := by
  induction h with
  | nil => intro X n0 k0 d0 ns0; simp
  | cons inner nm c ps cs hpn _ ih =>
    intro X n0 k0 d0 ns0
    rw [List.cons_append, parseSteps_nodeP,
      show parseSteps inner ([], BmlNode.elem) = (nm, c) from hpn,
      show (BmlNode.mk k0 d0 ns0).append (nm, c) = .mk k0 d0 (ns0 ++ [(nm, c)]) from rfl,
      ih X n0 k0 d0 (ns0 ++ [(nm, c)]),
      show ns0 ++ [(nm, c)] ++ cs = ns0 ++ (nm, c) :: cs from by simp]

theorem rootSteps_nodePEvts {ps : List BmlProd} {cs : List (Text × BmlNode)}
    (h : NodePEvts ps cs) : ∀ (k0 : BmlKind) (d0 : Text)
    (ns0 : List (Text × BmlNode)),
    rootSteps ps (.mk k0 d0 ns0) = .mk k0 d0 (ns0 ++ cs) := by
  induction h with
  | nil => intro k0 d0 ns0; simp [rootSteps]
  | cons inner nm c ps cs hpn _ ih =>
    intro k0 d0 ns0
    rw [show rootSteps (BmlProd.nodeP inner :: ps) (BmlNode.mk k0 d0 ns0)
        = rootSteps ps ((BmlNode.mk k0 d0 ns0).append (parse_node inner)) from rfl,
      show parse_node inner = (nm, c) from hpn,
      show (BmlNode.mk k0 d0 ns0).append (nm, c) = .mk k0 d0 (ns0 ++ [(nm, c)]) from rfl,
      ih,
      show ns0 ++ [(nm, c)] ++ cs = ns0 ++ (nm, c) :: cs from by simp]

theorem validLine_append {a b : Text} :
    validLine (a ++ b) = (validLine a && validLine b) := by
  simp [validLine, List.all_append]

theorem validLine_spI : ∀ k : Nat, validLine (spI k) = true
  | 0 => rfl
  | k + 1 => by
    rw [spI_succ, validLine_append, validLine_spI k]
    rfl

theorem validLine_of_nameChars {nm : Text} (h : nm.all nameChar = true) :
    validLine nm = true := by
  rw [validLine, List.all_eq_true]
  intro c hc
  have hn := List.all_eq_true.mp h c hc
  by_cases h1 : c = '\n'
  · subst h1; exact absurd hn (by decide)
  · by_cases h2 : c = '\r'
    · subst h2; exact absurd hn (by decide)
    · simp [h1, h2]

theorem validLine_serializeAttrs : ∀ (ns : List (Text × BmlNode)) (ind : BmlIndent),
    wfChildren ns = true → validLine (serializeAttrs ns ind) = true
  | [], _, _ => rfl
  | (nm, c) :: rest, ind, h => by
    rw [show serializeAttrs ((nm, c) :: rest) ind
        = if isAttrNode c then serialize c nm ind ++ serializeAttrs rest ind else []
      from rfl]
    cases hc : isAttrNode c with
    | false => rfl
    | true =>
      rw [if_pos rfl]
      rw [show wfChildren ((nm, c) :: rest)
          = if isAttrNode c then wfAttrNode nm c && wfChildren rest
            else wfElem nm c && wfElems rest from rfl, hc, if_pos rfl,
        Bool.and_eq_true] at h
      obtain ⟨ha, hrest⟩ := h
      rw [validLine_append, validLine_serializeAttrs rest ind hrest, Bool.and_true]
      obtain ⟨hnm, hshape⟩ := wfAttrNode_cases ha
      have h1 := validLine_of_nameChars (validName_all hnm)
      rcases hshape with hs | ⟨v, hs, hv⟩ | ⟨v, hs, hvne, hv⟩
      · subst hs
        rw [serialize_attr_eq, strLines_nil]
        simp only [validLine_append, h1, List.append_nil, Bool.and_true, Bool.true_and]
        decide
      · subst hs
        rw [serialize_attr_eq, strLines_single (validLine_of_quoted hv)]
        have h2 := validLine_of_quoted hv
        simp only [if_true, validLine_append, h1, h2, Bool.and_true, Bool.true_and]
        decide
      · subst hs
        rw [serialize_attr_eq, strLines_single (validLine_of_space hv)]
        have h2 := validLine_of_space hv
        simp only [Bool.false_eq_true, if_false, validLine_append, h1, h2,
          Bool.and_true, Bool.true_and]
        decide

theorem headLevelLe_mono {k k' : Nat} (h : k ≤ k') {ls : List BmlLine}
    (hl : headLevelLe k ls) : headLevelLe k' ls := by
  rcases hl with hl | ⟨m, b, hm, hhd⟩
  · exact Or.inl hl
  · exact Or.inr ⟨m, b, Nat.le_trans hm h, hhd⟩

theorem headLevelLt_of_le {k : Nat} {ls : List BmlLine} (h : headLevelLe k ls) :
    headLevelLt (k + 1) ls := by
  rcases h with h | ⟨m, b, hm, hhd⟩
  · exact Or.inl h
  · exact Or.inr ⟨m, b, Nat.lt_succ_of_le hm, hhd⟩

theorem head?_append_of_ne_nil {X : Text} (Y : Text) (h : X ≠ []) :
    (X ++ Y).head? = some X.headI := by
  match X, h with
  | c :: t, _ => rfl

theorem validName_append_take2 {nm : Text} (h : validName nm = true) (X : Text) :
    (nm ++ X).take 2 ≠ ['/', '/'] := by
  match nm, validName_ne_nil h with
  | c :: t, _ =>
    intro hc
    rw [List.cons_append, List.take_succ_cons] at hc
    have hcs : c = '/' := (List.cons.injEq _ _ _ _ ▸ hc).1
    have hcn := validName_headI h
    rw [show (c :: t : Text).headI = c from rfl, hcs] at hcn
    exact absurd hcn (by decide)

theorem validName_append_head_ne_colon {nm : Text} (h : validName nm = true) (X : Text) :
    ¬ ((nm ++ X).head? = some ':') := by
  match nm, validName_ne_nil h with
  | c :: t, _ =>
    intro hc
    rw [List.cons_append, List.head?_cons, Option.some.injEq] at hc
    have hcn := validName_headI h
    rw [show (c :: t : Text).headI = c from rfl, hc] at hcn
    exact absurd hcn (by decide)

theorem validName_append_head_not_ws {nm : Text} (h : validName nm = true) (X : Text) :
    isWsChar ((nm ++ X).headI) = false := by
  rw [headI_append_of_ne_nil (validName_ne_nil h)]
  exact nameChar_not_ws (validName_headI h)

theorem validName_append_ne_nil {nm : Text} (h : validName nm = true) (X : Text) :
    nm ++ X ≠ [] := by
  intro hc
  exact validName_ne_nil h (List.append_eq_nil.mp hc).1

theorem lexesTo_dataLines : ∀ (ls : List Text) (k : Nat) (restT : Text)
    (restL : List BmlLine), (∀ l ∈ ls, validLine l = true) → lexesTo restT restL →
    lexesTo ((ls.map (fun l => spI k ++ [':'] ++ l ++ ['\n'])).flatten ++ restT)
      (ls.map (fun l => ⟨spI k, ':' :: l⟩) ++ restL)
  | [], k, restT, restL, _, h => by simpa using h
  | l :: t, k, restT, restL, hv, h => by
    have ih := lexesTo_dataLines t k restT restL
      (fun x hx => hv x (List.mem_cons_of_mem l hx)) h
    have hl := hv l (List.mem_cons_self l t)
    have hval : validLine (spI k ++ ':' :: l) = true := by
      rw [show (spI k ++ ':' :: l : Text) = spI k ++ ([':'] ++ l) from rfl,
        validLine_append, validLine_append, validLine_spI, hl]
      decide
    have hcom : (':' :: l).take 2 ≠ ['/', '/'] := by
      intro hc
      rw [List.take_succ_cons] at hc
      simp at hc
    have happ := lexesTo_line (spI_all_ws k) (by simp)
      (show isWsChar ((':' :: l).headI) = false from by
        rw [show ((':' :: l : Text)).headI = ':' from rfl]; decide) hcom hval ih
    rw [show ((l :: t).map (fun l => spI k ++ [':'] ++ l ++ ['\n'])).flatten ++ restT
        = spI k ++ ((':' :: l) ++ '\n'
            :: ((t.map (fun l => spI k ++ [':'] ++ l ++ ['\n'])).flatten ++ restT)) from by
      simp]
    rw [List.map_cons, List.cons_append]
    exact happ

theorem BmlLine_ind_mk (i t : Text) : (⟨i, t⟩ : BmlLine).ind = i := rfl

theorem BmlLine_txt_mk (i t : Text) : (⟨i, t⟩ : BmlLine).txt = t := rfl

theorem parseItems_nil_ok (f : Nat) (ind : Text) (ad : Bool) :
    parseItems (f + 1) [] ind ad = .ok ([], []) := rfl

theorem sib_evts_nil {ind : Text} {ad : Bool} {evts : List BmlProd}
    {rem : List BmlLine} (h : parseOK [] ind ad evts rem) :
    evts = [] ∧ rem = [] := by
  have h0 := h 1 (by simp)
  rw [parseItems_nil_ok] at h0
  injection h0 with h0
  exact ⟨(congrArg Prod.fst h0).symm, (congrArg Prod.snd h0).symm⟩

theorem elem_ser_eq (nm d : Text) (ns : List (Text × BmlNode)) (k : Nat) :
    serialize (.mk .Elem d ns) nm (indAt k)
      = spI k ++ nm ++ serializeAttrs ns (indAt (k + 1)) ++
        (if countAttrs ns = 0 ∧ (strLines d).length = 1 then
          [':', ' '] ++ (strLines d).headI ++ ['\n']
        else
          ['\n']
            ++ ((strLines d).map (fun l => spI (k + 1) ++ [':'] ++ l ++ ['\n'])).flatten) ++
        serializeSkip 0 (ns.drop (countAttrs ns)) (indAt (k + 1)) := by
  rw [serialize, serializeSkip_drop]
  rfl

set_option maxHeartbeats 2000000 in
theorem elem_round_core (nm d : Text) (ns : List (Text × BmlNode)) (k : Nat)
    (restT : Text) (restL : List BmlLine)
    (hnm : validName nm = true) (hwfd : wfData d = true) (hch : wfChildren ns = true)
    (hle : headLevelLe k restL)
    (childLs : List BmlLine) (nodePs : List BmlProd)
    (hclex : lexesTo (serializeSkip 0 (ns.drop (countAttrs ns)) (indAt (k + 1)) ++ restT)
      childLs)
    (hnpe : NodePEvts nodePs (ns.drop (countAttrs ns)))
    (hcnil : ns.drop (countAttrs ns) = [] → childLs = restL)
    (hchead : ns.drop (countAttrs ns) ≠ [] → ∃ b, childLs.head? = some ⟨spI (k + 1), b⟩)
    (hclen : restL.length ≤ childLs.length)
    (hcpar : ∀ (ad : Bool) (evts : List BmlProd) (rem : List BmlLine),
      parseOK restL (spI (k + 1)) ad evts rem →
      parseOK childLs (spI (k + 1)) ad (nodePs ++ evts) rem) :
    ∃ (ls : List BmlLine) (inner : List BmlProd) (b : Text),
      lexesTo (serialize (.mk .Elem d ns) nm (indAt k) ++ restT) ls ∧
      ls.head? = some ⟨spI k, b⟩ ∧
      restL.length < ls.length ∧
      parse_node inner = (nm, .mk .Elem d ns) ∧
      ∀ (ad : Bool) (evts : List BmlProd) (rem : List BmlLine),
        parseOK restL (spI k) ad evts rem →
        parseOK ls (spI k) ad (.nodeP inner :: evts) rem := by
  have hstop : ∀ ad', parseOK restL (spI (k + 1)) ad' [] restL := fun ad' =>
    parseOK_stop (k + 1) restL ad' (headLevelLt_of_le hle)
  have hchild : ∀ ad', parseOK childLs (spI (k + 1)) ad' nodePs restL := by
    intro ad'
    have h := hcpar ad' [] restL (hstop ad')
    rwa [List.append_nil] at h
  by_cases hinl : countAttrs ns = 0 ∧ (strLines d).length = 1
  · -- inline rendering
    obtain ⟨v, hdl⟩ := List.length_eq_one.mp hinl.2
    have hvval : validLine v = true := wfData_valid hwfd v (by rw [hdl]; simp)
    have hd_eq : d = v ++ ['\n'] := by
      have h1 := wfData_eq hwfd
      rw [hdl, joinLines_single] at h1
      exact h1
    have hattrnil : serializeAttrs ns (indAt (k + 1)) = [] := serializeAttrs_eq_nil hinl.1
    have hdrop0 : ns.drop (countAttrs ns) = ns := by rw [hinl.1, List.drop_zero]
    have hhdr := parseHeader_round_inline nm v hnm
    have hBne := validName_append_ne_nil hnm (':' :: ' ' :: v)
    have hBws := validName_append_head_not_ws hnm (':' :: ' ' :: v)
    have hBcom := validName_append_take2 hnm (':' :: ' ' :: v)
    have hBcolon := validName_append_head_ne_colon hnm (':' :: ' ' :: v)
    have hBval : validLine (spI k ++ (nm ++ (':' :: ' ' :: v))) = true := by
      rw [show (spI k ++ (nm ++ (':' :: ' ' :: v)) : Text)
          = spI k ++ (nm ++ ([':', ' '] ++ v)) from rfl,
        validLine_append, validLine_append, validLine_append, validLine_spI,
        validLine_of_nameChars (validName_all hnm), hvval]
      decide
    have hlex1 : lexesTo (spI k ++ ((nm ++ (':' :: ' ' :: v)) ++ '\n'
        :: (serializeSkip 0 (ns.drop (countAttrs ns)) (indAt (k + 1)) ++ restT)))
        (⟨spI k, nm ++ (':' :: ' ' :: v)⟩ :: childLs) :=
      lexesTo_line (spI_all_ws k) hBne hBws hBcom hBval hclex
    have htext : serialize (.mk .Elem d ns) nm (indAt k) ++ restT
        = spI k ++ ((nm ++ (':' :: ' ' :: v)) ++ '\n'
            :: (serializeSkip 0 (ns.drop (countAttrs ns)) (indAt (k + 1)) ++ restT)) := by
      rw [elem_ser_eq, if_pos hinl, hattrnil, hdl]
      simp [List.headI]
    refine ⟨⟨spI k, nm ++ (':' :: ' ' :: v)⟩ :: childLs,
      .nameP nm :: ([dataEvt v] ++ nodePs), nm ++ (':' :: ' ' :: v), ?_, rfl,
      by simp only [List.length_cons]; omega, ?_, ?_⟩
    · rw [htext]
      exact hlex1
    · rw [show parse_node (.nameP nm :: ([dataEvt v] ++ nodePs))
          = parseSteps (.nameP nm :: ([dataEvt v] ++ nodePs)) ([], BmlNode.elem)
        from rfl,
        parseSteps_nameP,
        show BmlNode.elem = BmlNode.mk .Elem [] [] from rfl,
        show ([dataEvt v] : List BmlProd) = [v].map dataEvt from rfl,
        parseSteps_dataLines [v] nodePs nm .Elem [] []]
      have hnp := parseSteps_nodePEvts hnpe [] nm .Elem ([] ++ joinLines [v]) []
      rw [List.append_nil] at hnp
      rw [hnp, parseSteps_nil, hdrop0, hd_eq]
      simp [joinLines_single]
    · intro ad evts rem hsib fuel hfuel
      match fuel, hfuel with
      | f + 1, hfuel =>
        conv_lhs => rw [parseItems]
        rw [BmlLine_ind_mk, BmlLine_txt_mk,
          if_pos (show spI k = spI k from rfl), if_neg hBcolon, hhdr]
        simp only []
        by_cases hns : ns.drop (countAttrs ns) = []
        · -- childless: the line list continues directly with the caller's lines
          have hclr := hcnil hns
          have hnps : nodePs = [] := by
            rw [hns] at hnpe
            cases hnpe
            rfl
          rw [hclr]
          rcases hle with hre | ⟨m, b2, hm, hhd2⟩
          · subst hre
            obtain ⟨he, hr⟩ := sib_evts_nil hsib
            subst he
            subst hr
            simp [hnps]
          · cases restL with
            | nil => simp at hhd2
            | cons l2 rest2 =>
              rw [List.head?_cons, Option.some.injEq] at hhd2
              subst hhd2
              simp only [BmlLine_ind_mk]
              rw [if_neg (show ¬ (List.isPrefixOf (spI k) (spI m) = true ∧ spI m ≠ spI k)
                from by
                  rintro ⟨hp, hne⟩
                  rcases Nat.lt_or_eq_of_le hm with hlt | heq
                  · rw [spI_not_isPrefixOf hlt] at hp
                    exact absurd hp (by simp)
                  · exact hne (by rw [heq]))]
              rw [hsib f (by
                rw [hclr] at hfuel
                simp only [List.length_cons] at hfuel ⊢
                omega)]
              simp [hnps]
        · -- children: they form the strictly deeper block
          obtain ⟨b, hb⟩ := hchead hns
          cases childLs with
          | nil => simp at hb
          | cons cl0 ctail =>
            rw [List.head?_cons, Option.some.injEq] at hb
            subst hb
            simp only [BmlLine_ind_mk]
            rw [if_pos (show List.isPrefixOf (spI k) (spI (k + 1)) = true ∧
                  spI (k + 1) ≠ spI k from
                ⟨spI_isPrefixOf_of_le (Nat.le_succ k),
                 spI_ne_of_ne (Nat.succ_ne_self k)⟩)]
            rw [show (some v).isNone = false from rfl]
            rw [hchild false f (by
              simp only [List.length_cons] at hfuel ⊢
              omega)]
            simp only []
            rw [hsib f (by
              simp only [List.length_cons] at hfuel hclen ⊢
              omega)]
            simp
  · -- block rendering
    obtain ⟨attrEvts, hhdr, hbuild⟩ := parseHeader_round_attrs nm ns (indAt (k + 1)) hnm hch
    have hBne := validName_append_ne_nil hnm (serializeAttrs ns (indAt (k + 1)))
    have hBws := validName_append_head_not_ws hnm (serializeAttrs ns (indAt (k + 1)))
    have hBcom := validName_append_take2 hnm (serializeAttrs ns (indAt (k + 1)))
    have hBcolon := validName_append_head_ne_colon hnm (serializeAttrs ns (indAt (k + 1)))
    have hBval : validLine (spI k ++ (nm ++ serializeAttrs ns (indAt (k + 1)))) = true := by
      rw [validLine_append, validLine_append, validLine_spI,
        validLine_of_nameChars (validName_all hnm),
        validLine_serializeAttrs ns (indAt (k + 1)) hch]
      rfl
    have hlexD : lexesTo
        (((strLines d).map (fun l => spI (k + 1) ++ [':'] ++ l ++ ['\n'])).flatten
          ++ (serializeSkip 0 (ns.drop (countAttrs ns)) (indAt (k + 1)) ++ restT))
        ((strLines d).map (fun l => ⟨spI (k + 1), ':' :: l⟩) ++ childLs) :=
      lexesTo_dataLines (strLines d) (k + 1) _ childLs (wfData_valid hwfd) hclex
    have hlex1 := lexesTo_line (spI_all_ws k) hBne hBws hBcom hBval hlexD
    have htext : serialize (.mk .Elem d ns) nm (indAt k) ++ restT
        = spI k ++ ((nm ++ serializeAttrs ns (indAt (k + 1))) ++ '\n'
            :: (((strLines d).map (fun l => spI (k + 1) ++ [':'] ++ l ++ ['\n'])).flatten
              ++ (serializeSkip 0 (ns.drop (countAttrs ns)) (indAt (k + 1)) ++ restT))) := by
      rw [elem_ser_eq, if_neg hinl]
      simp
    have hblockOK : parseOK
        ((strLines d).map (fun l => ⟨spI (k + 1), ':' :: l⟩) ++ childLs) (spI (k + 1)) true
        ((strLines d).map dataEvt ++ nodePs) restL :=
      parseOK_dataLines (strLines d) childLs (k + 1) nodePs restL (hchild true)
    refine ⟨⟨spI k, nm ++ serializeAttrs ns (indAt (k + 1))⟩
        :: ((strLines d).map (fun l => ⟨spI (k + 1), ':' :: l⟩) ++ childLs),
      .nameP nm :: (attrEvts ++ ((strLines d).map dataEvt ++ nodePs)),
      nm ++ serializeAttrs ns (indAt (k + 1)), ?_, rfl,
      by simp only [List.length_cons, List.length_append, List.length_map]; omega, ?_, ?_⟩
    · rw [htext]
      exact hlex1
    · rw [show parse_node (.nameP nm
            :: (attrEvts ++ ((strLines d).map dataEvt ++ nodePs)))
          = parseSteps (.nameP nm :: (attrEvts ++ ((strLines d).map dataEvt ++ nodePs)))
              ([], BmlNode.elem) from rfl,
        parseSteps_nameP,
        show BmlNode.elem = BmlNode.mk .Elem [] [] from rfl,
        hbuild ((strLines d).map dataEvt ++ nodePs) nm .Elem [] [],
        List.nil_append,
        parseSteps_dataLines (strLines d) nodePs nm .Elem [] (ns.take (countAttrs ns)),
        List.nil_append]
      have hnp := parseSteps_nodePEvts hnpe [] nm .Elem (joinLines (strLines d))
        (ns.take (countAttrs ns))
      rw [List.append_nil] at hnp
      rw [hnp, parseSteps_nil, List.take_append_drop, ← wfData_eq hwfd]
    · intro ad evts rem hsib fuel hfuel
      match fuel, hfuel with
      | f + 1, hfuel =>
        conv_lhs => rw [parseItems]
        rw [BmlLine_ind_mk, BmlLine_txt_mk,
          if_pos (show spI k = spI k from rfl), if_neg hBcolon, hhdr]
        simp only []
        match hdlc : strLines d with
        | dl0 :: dlt =>
          -- the block opens with the first data line
          rw [hdlc] at hblockOK hfuel
          simp only [List.map_cons, List.cons_append, BmlLine_ind_mk] at hblockOK hfuel ⊢
          rw [if_pos (show List.isPrefixOf (spI k) (spI (k + 1)) = true ∧
                spI (k + 1) ≠ spI k from
              ⟨spI_isPrefixOf_of_le (Nat.le_succ k),
               spI_ne_of_ne (Nat.succ_ne_self k)⟩)]
          rw [show (none : Option Text).isNone = true from rfl]
          rw [hblockOK f (by
            simp only [List.length_cons, List.length_append, List.length_map]
              at hfuel ⊢
            omega)]
          simp only []
          rw [hsib f (by
            simp only [List.length_cons, List.length_append, List.length_map]
              at hfuel hclen ⊢
            omega)]
          simp
        | [] =>
          -- no data lines
          rw [hdlc] at hfuel
          simp only [List.map_nil, List.nil_append] at hfuel ⊢
          by_cases hns : ns.drop (countAttrs ns) = []
          · -- leaf element: header line only
            have hclr := hcnil hns
            have hnps : nodePs = [] := by
              rw [hns] at hnpe
              cases hnpe
              rfl
            rw [hclr]
            rcases hle with hre | ⟨m, b2, hm, hhd2⟩
            · subst hre
              obtain ⟨he, hr⟩ := sib_evts_nil hsib
              subst he
              subst hr
              simp [hnps]
            · cases restL with
              | nil => simp at hhd2
              | cons l2 rest2 =>
                rw [List.head?_cons, Option.some.injEq] at hhd2
                subst hhd2
                simp only [BmlLine_ind_mk]
                rw [if_neg (show ¬ (List.isPrefixOf (spI k) (spI m) = true ∧ spI m ≠ spI k)
                  from by
                    rintro ⟨hp, hne⟩
                    rcases Nat.lt_or_eq_of_le hm with hlt | heq
                    · rw [spI_not_isPrefixOf hlt] at hp
                      exact absurd hp (by simp)
                    · exact hne (by rw [heq]))]
                rw [hsib f (by
                  rw [hclr] at hfuel
                  simp only [List.length_cons] at hfuel ⊢
                  omega)]
                simp [hnps]
          · -- only child elements in the block
            obtain ⟨b, hb⟩ := hchead hns
            cases childLs with
            | nil => simp at hb
            | cons cl0 ctail =>
              rw [List.head?_cons, Option.some.injEq] at hb
              subst hb
              simp only [BmlLine_ind_mk]
              rw [if_pos (show List.isPrefixOf (spI k) (spI (k + 1)) = true ∧
                    spI (k + 1) ≠ spI k from
                  ⟨spI_isPrefixOf_of_le (Nat.le_succ k),
                   spI_ne_of_ne (Nat.succ_ne_self k)⟩)]
              rw [show (none : Option Text).isNone = true from rfl]
              rw [hchild true f (by
                simp only [List.length_cons] at hfuel ⊢
                omega)]
              simp only []
              rw [hsib f (by
                simp only [List.length_cons] at hfuel hclen ⊢
                omega)]
              simp [hdlc]

mutual

theorem elem_round : ∀ (nm : Text) (c : BmlNode) (k : Nat) (restT : Text)
    (restL : List BmlLine), wfElem nm c = true → lexesTo restT restL →
    headLevelLe k restL →
    ∃ (ls : List BmlLine) (inner : List BmlProd) (b : Text),
      lexesTo (serialize c nm (indAt k) ++ restT) ls ∧
      ls.head? = some ⟨spI k, b⟩ ∧
      restL.length < ls.length ∧
      parse_node inner = (nm, c) ∧
      ∀ (ad : Bool) (evts : List BmlProd) (rem : List BmlLine),
        parseOK restL (spI k) ad evts rem →
        parseOK ls (spI k) ad (.nodeP inner :: evts) rem
  | nm, .mk .Elem d ns, k, restT, restL, h, hlex, hle => by
    rw [wfElem, Bool.and_eq_true, Bool.and_eq_true] at h
    obtain ⟨⟨hnm, hwfd⟩, hch⟩ := h
    obtain ⟨childLs, nodePs, hclex, hnpe, hcnil, hchead, hclen, hcpar⟩ :=
      elems_round (ns.drop (countAttrs ns)) (k + 1) restT restL
        (wfChildren_drop ns hch) hlex (headLevelLe_mono (Nat.le_succ k) hle)
    exact elem_round_core nm d ns k restT restL hnm hwfd hch hle childLs nodePs
      hclex hnpe hcnil hchead hclen hcpar
  | nm, .mk (.Root ri) d ns, k, restT, restL, h, _, _ => by
    simp [wfElem] at h
  | nm, .mk (.Attr q) d ns, k, restT, restL, h, _, _ => by
    simp [wfElem] at h
termination_by nm c k restT restL h hlex hle => sizeOf c
decreasing_by
  have hle2 := sizeOf_drop_le (countAttrs ns) ns
  simp at hle2 ⊢
  omega

theorem elems_round : ∀ (cs : List (Text × BmlNode)) (k : Nat) (restT : Text)
    (restL : List BmlLine), wfElems cs = true → lexesTo restT restL →
    headLevelLe k restL →
    ∃ (ls : List BmlLine) (ps : List BmlProd),
      lexesTo (serializeSkip 0 cs (indAt k) ++ restT) ls ∧
      NodePEvts ps cs ∧
      (cs = [] → ls = restL) ∧
      (cs ≠ [] → ∃ b, ls.head? = some ⟨spI k, b⟩) ∧
      restL.length ≤ ls.length ∧
      ∀ (ad : Bool) (evts : List BmlProd) (rem : List BmlLine),
        parseOK restL (spI k) ad evts rem →
        parseOK ls (spI k) ad (ps ++ evts) rem
  | [], k, restT, restL, _, hlex, hle =>
    ⟨restL, [], by simpa using hlex, .nil, fun _ => rfl,
      fun hc => absurd rfl hc, Nat.le_refl _, fun ad evts rem h => by simpa using h⟩
  | (nm0, c0) :: rest, k, restT, restL, h, hlex, hle => by
    rw [wfElems, Bool.and_eq_true] at h
    obtain ⟨hwfe, hwfes⟩ := h
    obtain ⟨ls', ps', hlex', hnpe', hnil', hhead', hlen', hpar'⟩ :=
      elems_round rest k restT restL hwfes hlex hle
    have hle' : headLevelLe k ls' := by
      by_cases hr : rest = []
      · rw [hnil' hr]
        exact hle
      · obtain ⟨b, hb⟩ := hhead' hr
        exact Or.inr ⟨k, b, Nat.le_refl k, hb⟩
    obtain ⟨ls, inner, b, hlexE, hheadE, hlenE, hpn, hparE⟩ :=
      elem_round nm0 c0 k (serializeSkip 0 rest (indAt k) ++ restT) ls' hwfe hlex' hle'
    refine ⟨ls, .nodeP inner :: ps', ?_, .cons inner nm0 c0 ps' rest hpn hnpe',
      fun hc => absurd hc (by simp), fun _ => ⟨b, hheadE⟩,
      Nat.le_of_lt (Nat.lt_of_le_of_lt hlen' hlenE), ?_⟩
    · rw [show serializeSkip 0 ((nm0, c0) :: rest) (indAt k)
          = serialize c0 nm0 (indAt k) ++ serializeSkip 0 rest (indAt k) from rfl,
        List.append_assoc]
      exact hlexE
    · intro ad evts rem hsib
      have h1 := hpar' ad evts rem hsib
      have h2 := hparE ad (ps' ++ evts) rem h1
      rw [List.cons_append]
      exact h2
termination_by cs k restT restL h hlex hle => sizeOf cs
decreasing_by
  all_goals simp <;> omega

end

theorem root_round : ∀ ns : List (Text × BmlNode), wfElems ns = true →
    ∃ (ls : List BmlLine) (ps : List BmlProd),
      lexesTo (serializeRoot ns (indAt 0)) ls ∧
      NodePEvts ps ns ∧
      headLevelLe 0 ls ∧
      parseOK ls (spI 0) false ps []
  | [], _ =>
    ⟨[], [], lexesTo_nil, .nil, Or.inl rfl, by
      intro fuel hf
      match fuel, hf with
      | f + 1, _ => rfl⟩
  | [(nm, c)], h => by
    rw [wfElems, Bool.and_eq_true] at h
    have hsib : parseOK [] (spI 0) false [] [] := by
      intro fuel hf
      match fuel, hf with
      | f + 1, _ => rfl
    obtain ⟨ls, inner, b, hlexE, hheadE, -, hpn, hparE⟩ :=
      elem_round nm c 0 [] [] h.1 lexesTo_nil (Or.inl rfl)
    rw [List.append_nil] at hlexE
    exact ⟨ls, [.nodeP inner],
      by rw [show serializeRoot [(nm, c)] (indAt 0) = serialize c nm (indAt 0) from rfl]
         exact hlexE,
      .cons inner nm c [] [] hpn .nil,
      Or.inr ⟨0, b, Nat.le_refl 0, hheadE⟩,
      hparE false [] [] hsib⟩
  | (nm, c) :: p2 :: rest, h => by
    rw [wfElems, Bool.and_eq_true] at h
    obtain ⟨ls', ps', hlex', hnpe', hle', hpar'⟩ := root_round (p2 :: rest) h.2
    obtain ⟨ls, inner, b, hlexE, hheadE, -, hpn, hparE⟩ :=
      elem_round nm c 0 ('\n' :: serializeRoot (p2 :: rest) (indAt 0)) ls' h.1
        (lexesTo_blank hlex') hle'
    exact ⟨ls, .nodeP inner :: ps',
      by rw [show serializeRoot ((nm, c) :: p2 :: rest) (indAt 0)
             = serialize c nm (indAt 0) ++ ['\n'] ++ serializeRoot (p2 :: rest) (indAt 0)
           from rfl,
           List.append_assoc]
         exact hlexE,
      .cons inner nm c ps' (p2 :: rest) hpn hnpe',
      Or.inr ⟨0, b, Nat.le_refl 0, hheadE⟩,
      hparE false ps' [] hpar'⟩

theorem try_from_display : ∀ (A : BmlNode), wfRoot A = true →
    try_from (displayString A) = .ok A
  | .mk kd d ns, h => by
    rw [wfRoot, Bool.and_eq_true, Bool.and_eq_true] at h
    obtain ⟨⟨hk, hd⟩, hns⟩ := h
    have hk' : kd = .Root BmlIndent.default := by simpa using hk
    have hd' : d = [] := by simpa using hd
    subst hk'
    subst hd'
    obtain ⟨ls, ps, hlex, hnpe, -, hpar⟩ := root_round ns hns
    have hp := hpar (ls.length + 1) (Nat.lt_succ_self _)
    rw [show spI 0 = ([] : Text) from rfl] at hp
    rw [show displayString (BmlNode.mk (.Root BmlIndent.default) [] ns)
        = String.mk (serializeRoot ns (indAt 0)) from rfl]
    simp only [try_from]
    rw [show (String.mk (serializeRoot ns (indAt 0))).toList
        = serializeRoot ns (indAt 0) from rfl]
    simp only [pestParse]
    rw [hlex]
    simp only []
    rw [hp]
    simp only []
    rw [show BmlNode.root = BmlNode.mk (.Root BmlIndent.default) [] [] from rfl,
      rootSteps_nodePEvts hnpe (.Root BmlIndent.default) [] [], List.nil_append]

theorem validLine_iff {l : Text} :
    validLine l = true ↔ ∀ c ∈ l, c ≠ '\n' ∧ c ≠ '\r' := by
  simp [validLine, List.all_eq_true]

theorem validLine_sublist {a b : Text} (h : a.Sublist b) (hv : validLine b = true) :
    validLine a = true := by
  rw [validLine_iff] at hv ⊢
  exact fun c hc => hv c (h.subset hc)

theorem splitNlCore_no_nl : ∀ (s : Text), ∀ seg ∈ splitNlCore s, '\n' ∉ seg
  | [], seg, hm => by
    simp [splitNlCore] at hm
    simp [hm]
  | c :: rest, seg, hm => by
    by_cases hc : c = '\n'
    · rw [splitNlCore, if_pos hc] at hm
      rcases List.mem_cons.mp hm with hm | hm
      · simp [hm]
      · exact splitNlCore_no_nl rest seg hm
    · rw [splitNlCore, if_neg hc] at hm
      revert hm
      match hsp : splitNlCore rest with
      | [] => exact absurd hsp (splitNlCore_ne_nil rest)
      | l :: ls =>
        intro hm
        rcases List.mem_cons.mp hm with hm | hm
        · subst hm
          intro hin
          rcases List.mem_cons.mp hin with hin | hin
          · exact hc hin.symm
          · exact splitNlCore_no_nl rest l (hsp ▸ List.mem_cons_self l ls) hin
        · exact splitNlCore_no_nl rest seg (hsp ▸ List.mem_cons_of_mem l hm)

theorem toRawLines_no_nl {s : Text} {r : Text} (h : r ∈ toRawLines s) : '\n' ∉ r := by
  refine splitNlCore_no_nl s r ?_
  rw [show toRawLines s = if (splitNlCore s).getLast? = some []
      then (splitNlCore s).dropLast else splitNlCore s from rfl] at h
  revert h
  split
  · exact fun h => List.dropLast_subset _ h
  · exact fun h => h

theorem lexLine_sound {raw : Text} {ln : BmlLine}
    (h : lexLine raw = .ok (some ln)) (hn : '\n' ∉ raw) : validLine ln.txt = true := by
  revert h
  simp only [lexLine]
  split
  · intro h
    exact absurd h (by simp)
  · next hcr =>
    split
    · intro h
      exact absurd h (by simp)
    · split
      · intro h
        exact absurd h (by simp)
      · intro h
        rw [Except.ok.injEq, Option.some.injEq] at h
        subst h
        rw [validLine_iff]
        intro c hc
        have hsub : c ∈ stripCr raw := (List.dropWhile_sublist _).subset hc
        have hcraw : c ∈ raw := by
          revert hsub
          unfold stripCr
          split
          · exact fun hs => (List.dropLast_sublist raw).subset hs
          · exact fun hs => hs
        constructor
        · intro he
          exact hn (he ▸ hcraw)
        · intro he
          exact hcr (List.any_eq_true.mpr ⟨c, hsub, by simp [he]⟩)

theorem lexLines_sound : ∀ (raws : List Text) (ls : List BmlLine),
    lexLines raws = .ok ls → (∀ r ∈ raws, '\n' ∉ r) →
    ∀ l ∈ ls, validLine l.txt = true
  | [], ls, h, _, l, hl => by
    rw [show lexLines [] = .ok [] from rfl, Except.ok.injEq] at h
    subst h
    simp at hl
  | raw :: rest, ls, h, hn, l, hl => by
    rw [lexLines] at h
    revert h
    match h1 : lexLine raw, h2 : lexLines rest with
    | .error e, _ => intro h; exact absurd h (by simp)
    | .ok none, .error e => intro h; exact absurd h (by simp)
    | .ok (some x), .error e => intro h; exact absurd h (by simp)
    | .ok none, .ok ls2 =>
      intro h
      rw [Except.ok.injEq] at h
      subst h
      exact lexLines_sound rest ls2 h2 (fun r hr => hn r (List.mem_cons_of_mem raw hr)) l hl
    | .ok (some x), .ok ls2 =>
      intro h
      rw [Except.ok.injEq] at h
      subst h
      rcases List.mem_cons.mp hl with hl | hl
      · subst hl
        exact lexLine_sound h1 (hn raw (List.mem_cons_self raw rest))
      · exact lexLines_sound rest ls2 h2 (fun r hr => hn r (List.mem_cons_of_mem raw hr)) l hl

theorem parseOneAttr_sound {cs : Text} {p : BmlProd} {rest : Text}
    (hv : validLine cs = true) :
    parseOneAttr cs = .ok (p, rest) →
    (∀ tail : List BmlProd, EvtWFAttrs tail → EvtWFAttrs (p :: tail)) ∧
    validLine rest = true := by
  have hnmall : (cs.takeWhile nameChar).all nameChar = true :=
    List.all_eq_true.mpr (fun c hc => List.mem_takeWhile_imp hc)
  have hr1sub : (cs.dropWhile nameChar).Sublist cs := List.dropWhile_sublist _
  simp only [parseOneAttr]
  split
  · intro h
    exact absurd h (by simp)
  · next hanm =>
    have hvn : validName (cs.takeWhile nameChar) = true := by
      unfold validName
      rw [hnmall]
      simpa using hanm
    rcases hr1 : cs.dropWhile nameChar with _ | ⟨c, r2⟩
    · simp only []
      intro h
      rw [Except.ok.injEq, Prod.mk.injEq] at h
      obtain ⟨hp, hrest⟩ := h
      subst hp
      subst hrest
      exact ⟨fun tail ht => .bare _ tail hvn ht, rfl⟩
    · have hr1sub' : (c :: r2).Sublist cs := hr1 ▸ hr1sub
      have hr2s : r2.Sublist cs := (List.sublist_cons_self c r2).trans hr1sub'
      simp only []
      split
      · -- '=' value follows
        cases r2 with
        | nil =>
          intro h
          exact absurd h (by simp)
        | cons c2 r3 =>
          have hr3sub : r3.Sublist cs := (List.sublist_cons_self c2 r3).trans hr2s
          simp only []
          split
          · -- quoted value
            rcases hdw : r3.dropWhile (· ≠ '"') with _ | ⟨x, r4⟩
            · intro h
              exact absurd h (by simp)
            · simp only []
              split
              · intro h
                rw [Except.ok.injEq, Prod.mk.injEq] at h
                obtain ⟨hp, hrest⟩ := h
                subst hp
                subst hrest
                have hvsub : (r3.takeWhile (· ≠ '"')).Sublist cs :=
                  (List.takeWhile_sublist _).trans hr3sub
                have hvq : (r3.takeWhile (· ≠ '"')).all quotedValueChar = true := by
                  rw [List.all_eq_true]
                  intro a ha
                  have h2 := List.mem_takeWhile_imp ha
                  have h3 := validLine_iff.mp (validLine_sublist hvsub hv) a ha
                  unfold quotedValueChar
                  simp only [Bool.and_eq_true, bne_iff_ne, ne_eq]
                  simp only [decide_eq_true_eq] at h2
                  exact ⟨⟨h2, h3.1⟩, h3.2⟩
                have hr4 : validLine r4 = true := by
                  refine validLine_sublist ((List.sublist_cons_self x r4).trans ?_) hv
                  rw [← hdw]
                  exact (List.dropWhile_sublist _).trans hr3sub
                exact ⟨fun tail ht => .quoted _ _ tail hvn hvq ht, hr4⟩
              · intro h
                exact absurd h (by simp)
          · -- unquoted value
            split
            · intro h
              exact absurd h (by simp)
            · next hne =>
              split
              · intro h
                rw [Except.ok.injEq, Prod.mk.injEq] at h
                obtain ⟨hp, hrest⟩ := h
                subst hp
                subst hrest
                have hvsub : ((c2 :: r3).takeWhile bareValueChar).Sublist cs :=
                  (List.takeWhile_sublist _).trans hr2s
                have hvs : ((c2 :: r3).takeWhile bareValueChar).all spaceValueChar
                    = true := by
                  rw [List.all_eq_true]
                  intro a ha
                  have h2 := List.mem_takeWhile_imp ha
                  have h3 := validLine_iff.mp (validLine_sublist hvsub hv) a ha
                  unfold spaceValueChar
                  simp only [Bool.and_eq_true, bne_iff_ne, ne_eq]
                  exact ⟨⟨h2, h3.1⟩, h3.2⟩
                exact ⟨fun tail ht => .unquoted _ _ tail hvn hne hvs ht,
                  validLine_sublist ((List.dropWhile_sublist _).trans hr2s) hv⟩
              · intro h
                exact absurd h (by simp)
      · -- bare attribute followed by a separator
        split
        · intro h
          rw [Except.ok.injEq, Prod.mk.injEq] at h
          obtain ⟨hp, hrest⟩ := h
          subst hp
          subst hrest
          exact ⟨fun tail ht => .bare _ tail hvn ht, validLine_sublist hr1sub' hv⟩
        · intro h
          exact absurd h (by simp)

theorem parseAttrs_sound : ∀ (fuel : Nat) (cs : Text) (evts : List BmlProd),
    parseAttrs fuel cs = .ok evts → validLine cs = true → EvtWFAttrs evts
  | 0, cs, evts, h, _ => by
    exact absurd h (by simp [parseAttrs])
  | fuel + 1, cs, evts, h, hv => by
    rw [parseAttrs] at h
    revert h
    split
    · intro h
      rw [Except.ok.injEq] at h
      subst h
      exact .nil
    · rcases hone : parseOneAttr (cs.dropWhile isWsChar) with e | ⟨a, rest⟩
      · intro h
        exact absurd h (by simp)
      · simp only []
        rcases hrec : parseAttrs fuel rest with e2 | as
        · intro h
          exact absurd h (by simp)
        · simp only []
          intro h
          rw [Except.ok.injEq] at h
          subst h
          have hws : validLine (cs.dropWhile isWsChar) = true :=
            validLine_sublist (List.dropWhile_sublist _) hv
          obtain ⟨hcons, hrest⟩ := parseOneAttr_sound hws hone
          exact hcons as (parseAttrs_sound fuel rest as hrec hrest)

theorem parseHeader_sound {txt nm : Text} {attrEvts : List BmlProd} {inl : Option Text}
    (hv : validLine txt = true) :
    parseHeader txt = .ok (nm, attrEvts, inl) →
    validName nm = true ∧ EvtWFAttrs attrEvts ∧
    ∀ v, inl = some v → validLine v = true := by
  have hnmall : (txt.takeWhile nameChar).all nameChar = true :=
    List.all_eq_true.mpr (fun c hc => List.mem_takeWhile_imp hc)
  simp only [parseHeader]
  split
  · intro h
    exact absurd h (by simp)
  · next hanm =>
    have hvn : validName (txt.takeWhile nameChar) = true := by
      unfold validName
      rw [hnmall]
      simpa using hanm
    rcases hr : txt.dropWhile nameChar with _ | ⟨c, r2⟩
    · intro h
      rw [Except.ok.injEq, Prod.mk.injEq, Prod.mk.injEq] at h
      obtain ⟨h1, h2, h3⟩ := h
      subst h1
      subst h2
      subst h3
      exact ⟨hvn, .nil, by simp⟩
    · have hr2sub : (c :: r2).Sublist txt := hr ▸ List.dropWhile_sublist _
      have hr2s : r2.Sublist txt := (List.sublist_cons_self c r2).trans hr2sub
      simp only []
      split
      · intro h
        rw [Except.ok.injEq, Prod.mk.injEq, Prod.mk.injEq] at h
        obtain ⟨h1, h2, h3⟩ := h
        subst h1
        subst h2
        subst h3
        refine ⟨hvn, .nil, ?_⟩
        intro v hveq
        rw [Option.some.injEq] at hveq
        subst hveq
        split
        · exact validLine_sublist ((List.tail_sublist r2).trans hr2s) hv
        · exact validLine_sublist hr2s hv
      · split
        · rcases hpa : parseAttrs ((c :: r2).length + 1) (c :: r2) with e | attrs
          · intro h
            exact absurd h (by simp)
          · simp only []
            intro h
            rw [Except.ok.injEq, Prod.mk.injEq, Prod.mk.injEq] at h
            obtain ⟨h1, h2, h3⟩ := h
            subst h1
            subst h2
            subst h3
            exact ⟨hvn, parseAttrs_sound _ _ _ hpa (validLine_sublist hr2sub hv), by simp⟩
        · intro h
          exact absurd h (by simp)

theorem EvtWFTail_append : ∀ {a : List BmlProd}, EvtWFTail a → ∀ {b : List BmlProd},
    EvtWFTail b → EvtWFTail (a ++ b)
  | _, .nil, _, hb => by simpa using hb
  | _, .data v rest hvv hrest, _, hb => .data v _ hvv (EvtWFTail_append hrest hb)
  | _, .node p rest hp hrest, _, hb => .node p _ hp (EvtWFTail_append hrest hb)

theorem parseItems_sound : ∀ (fuel : Nat) (lines : List BmlLine) (ind : Text) (ad : Bool)
    (evts : List BmlProd) (rem : List BmlLine),
    parseItems fuel lines ind ad = .ok (evts, rem) →
    (∀ l ∈ lines, validLine l.txt = true) →
    EvtWFTail evts ∧ ∀ l ∈ rem, validLine l.txt = true
  | 0, _, _, _, _, _, h, _ => by
    exact absurd h (by simp [parseItems])
  | fuel + 1, [], ind, ad, evts, rem, h, _ => by
    rw [show parseItems (fuel + 1) [] ind ad = .ok ([], []) from rfl,
      Except.ok.injEq, Prod.mk.injEq] at h
    obtain ⟨h1, h2⟩ := h
    subst h1
    subst h2
    exact ⟨.nil, by simp⟩
  | fuel + 1, ln :: rest, ind, ad, evts, rem, h, hv => by
    have hvln : validLine ln.txt = true := hv ln (List.mem_cons_self _ _)
    have hvrest : ∀ l ∈ rest, validLine l.txt = true :=
      fun l hl => hv l (List.mem_cons_of_mem _ hl)
    rw [parseItems] at h
    revert h
    split
    · split
      · split
        · rcases hrec : parseItems fuel rest ind ad with e | ⟨evts2, rem2⟩
          · intro h
            exact absurd h (by simp)
          · simp only []
            intro h
            rw [Except.ok.injEq, Prod.mk.injEq] at h
            obtain ⟨h1, h2⟩ := h
            subst h1
            subst h2
            obtain ⟨hwf, hrm⟩ := parseItems_sound fuel rest ind ad _ _ hrec hvrest
            exact ⟨.data _ _ (validLine_sublist (List.tail_sublist _) hvln) hwf, hrm⟩
        · intro h
          exact absurd h (by simp)
      · rcases hh : parseHeader ln.txt with e | ⟨nm2, attrEvts, inl⟩
        · intro h
          exact absurd h (by simp)
        · simp only []
          obtain ⟨hvn, hwfa, hinl⟩ := parseHeader_sound hvln hh
          cases inl with
          | none =>
            cases rest with
            | nil =>
              simp only []
              intro h
              rw [Except.ok.injEq, Prod.mk.injEq] at h
              obtain ⟨h1, h2⟩ := h
              subst h1
              subst h2
              exact ⟨.node _ [] (EvtWFNode.intro nm2 attrEvts [] hvn hwfa .nil) .nil,
                by simp⟩
            | cons l2 rest2 =>
              simp only []
              split
              · rcases hb : parseItems fuel (l2 :: rest2) l2.ind (none : Option Text).isNone
                    with e | ⟨blockEvts, rem1⟩
                · intro h
                  exact absurd h (by simp)
                · simp only []
                  rcases hs : parseItems fuel rem1 ind ad with e | ⟨sibEvts, rem2⟩
                  · intro h
                    exact absurd h (by simp)
                  · simp only []
                    intro h
                    rw [Except.ok.injEq, Prod.mk.injEq] at h
                    obtain ⟨h1, h2⟩ := h
                    subst h1
                    subst h2
                    obtain ⟨hwfb, hrm1⟩ := parseItems_sound fuel _ _ _ _ _ hb hvrest
                    obtain ⟨hwfs, hrm2⟩ := parseItems_sound fuel _ _ _ _ _ hs hrm1
                    refine ⟨.node _ _ ?_ hwfs, hrm2⟩
                    rw [List.append_assoc]
                    exact EvtWFNode.intro nm2 attrEvts _ hvn hwfa
                      (EvtWFTail_append .nil hwfb)
              · rcases hs : parseItems fuel (l2 :: rest2) ind ad with e | ⟨sibEvts, rem2⟩
                · intro h
                  exact absurd h (by simp)
                · simp only []
                  intro h
                  rw [Except.ok.injEq, Prod.mk.injEq] at h
                  obtain ⟨h1, h2⟩ := h
                  subst h1
                  subst h2
                  obtain ⟨hwfs, hrm⟩ := parseItems_sound fuel _ _ _ _ _ hs hvrest
                  exact ⟨.node _ _ (EvtWFNode.intro nm2 attrEvts [] hvn hwfa .nil) hwfs,
                    hrm⟩
          | some v =>
            have hinlT : EvtWFTail [dataEvt v] := .data v [] (hinl v rfl) .nil
            cases rest with
            | nil =>
              simp only []
              intro h
              rw [Except.ok.injEq, Prod.mk.injEq] at h
              obtain ⟨h1, h2⟩ := h
              subst h1
              subst h2
              exact ⟨.node _ []
                (EvtWFNode.intro nm2 attrEvts [dataEvt v] hvn hwfa hinlT) .nil, by simp⟩
            | cons l2 rest2 =>
              simp only []
              split
              · rcases hb : parseItems fuel (l2 :: rest2) l2.ind (some v : Option Text).isNone
                    with e | ⟨blockEvts, rem1⟩
                · intro h
                  exact absurd h (by simp)
                · simp only []
                  rcases hs : parseItems fuel rem1 ind ad with e | ⟨sibEvts, rem2⟩
                  · intro h
                    exact absurd h (by simp)
                  · simp only []
                    intro h
                    rw [Except.ok.injEq, Prod.mk.injEq] at h
                    obtain ⟨h1, h2⟩ := h
                    subst h1
                    subst h2
                    obtain ⟨hwfb, hrm1⟩ := parseItems_sound fuel _ _ _ _ _ hb hvrest
                    obtain ⟨hwfs, hrm2⟩ := parseItems_sound fuel _ _ _ _ _ hs hrm1
                    refine ⟨.node _ _ ?_ hwfs, hrm2⟩
                    rw [List.append_assoc]
                    exact EvtWFNode.intro nm2 attrEvts _ hvn hwfa
                      (EvtWFTail_append hinlT hwfb)
              · rcases hs : parseItems fuel (l2 :: rest2) ind ad with e | ⟨sibEvts, rem2⟩
                · intro h
                  exact absurd h (by simp)
                · simp only []
                  intro h
                  rw [Except.ok.injEq, Prod.mk.injEq] at h
                  obtain ⟨h1, h2⟩ := h
                  subst h1
                  subst h2
                  obtain ⟨hwfs, hrm⟩ := parseItems_sound fuel _ _ _ _ _ hs hvrest
                  exact ⟨.node _ _
                    (EvtWFNode.intro nm2 attrEvts [dataEvt v] hvn hwfa hinlT) hwfs, hrm⟩
    · split
      · intro h
        exact absurd h (by simp)
      · intro h
        rw [Except.ok.injEq, Prod.mk.injEq] at h
        obtain ⟨h1, h2⟩ := h
        subst h1
        subst h2
        exact ⟨.nil, hv⟩

theorem parse_attr_bare (nm : Text) :
    parse_attr [.nameP nm] = (nm, .mk (.Attr true) [] []) := rfl

theorem parse_attr_quoted (nm v : Text) :
    parse_attr [.nameP nm, .dataP [⟨false, v⟩]]
      = (nm, .mk (.Attr true) (v ++ ['\n']) []) := by
  simp [parse_attr, attrSteps, attrDataSteps, BmlNode.attr, BmlNode.pushData, dataInnerStr]

theorem parse_attr_unquoted (nm v : Text) :
    parse_attr [.nameP nm, .dataP [⟨true, v⟩]]
      = (nm, .mk (.Attr false) (v ++ ['\n']) []) := by
  simp [parse_attr, attrSteps, attrDataSteps, BmlNode.attr, BmlNode.setKind,
    BmlNode.pushData, dataInnerStr]

theorem wfAttrNode_bare {nm : Text} (h : validName nm = true) :
    wfAttrNode nm (.mk (.Attr true) [] []) = true := by
  unfold wfAttrNode
  simp [h]

theorem wfAttrNode_quoted {nm v : Text} (hnm : validName nm = true)
    (hv : v.all quotedValueChar = true) :
    wfAttrNode nm (.mk (.Attr true) (v ++ ['\n']) []) = true := by
  unfold wfAttrNode
  simp [hnm, hv, List.getLast?_concat, List.dropLast_concat]

theorem wfAttrNode_unquoted {nm v : Text} (hnm : validName nm = true)
    (hvne : v ≠ []) (hv : v.all spaceValueChar = true) :
    wfAttrNode nm (.mk (.Attr false) (v ++ ['\n']) []) = true := by
  unfold wfAttrNode
  simp [hnm, hv, hvne, List.getLast?_concat, List.dropLast_concat]

theorem steps_attrs : ∀ {attrs : List BmlProd}, EvtWFAttrs attrs →
    ∃ ans : List (Text × BmlNode),
      (∀ p ∈ ans, isAttrNode p.2 = true ∧ wfAttrNode p.1 p.2 = true) ∧
      ∀ (X : List BmlProd) (nm0 : Text) (k0 : BmlKind) (d0 : Text)
        (ns0 : List (Text × BmlNode)),
        parseSteps (attrs ++ X) (nm0, .mk k0 d0 ns0)
          = parseSteps X (nm0, .mk k0 d0 (ns0 ++ ans))
  | _, .nil => ⟨[], by simp, by simp⟩
  | _, .bare nm rest hnm hrest => by
    obtain ⟨ans, hans, hfold⟩ := steps_attrs hrest
    refine ⟨(nm, .mk (.Attr true) [] []) :: ans, ?_, ?_⟩
    · intro p hp
      rcases List.mem_cons.mp hp with hp | hp
      · subst hp
        exact ⟨rfl, wfAttrNode_bare hnm⟩
      · exact hans p hp
    · intro X nm0 k0 d0 ns0
      rw [List.cons_append, parseSteps_attrP, parse_attr_bare,
        show (BmlNode.mk k0 d0 ns0).append (nm, .mk (.Attr true) [] [])
            = .mk k0 d0 (ns0 ++ [(nm, .mk (.Attr true) [] [])]) from rfl,
        hfold X nm0 k0 d0 _]
      simp
  | _, .quoted nm v rest hnm hv hrest => by
    obtain ⟨ans, hans, hfold⟩ := steps_attrs hrest
    refine ⟨(nm, .mk (.Attr true) (v ++ ['\n']) []) :: ans, ?_, ?_⟩
    · intro p hp
      rcases List.mem_cons.mp hp with hp | hp
      · subst hp
        exact ⟨rfl, wfAttrNode_quoted hnm hv⟩
      · exact hans p hp
    · intro X nm0 k0 d0 ns0
      rw [List.cons_append, parseSteps_attrP, parse_attr_quoted,
        show (BmlNode.mk k0 d0 ns0).append (nm, .mk (.Attr true) (v ++ ['\n']) [])
            = .mk k0 d0 (ns0 ++ [(nm, .mk (.Attr true) (v ++ ['\n']) [])]) from rfl,
        hfold X nm0 k0 d0 _]
      simp
  | _, .unquoted nm v rest hnm hvne hv hrest => by
    obtain ⟨ans, hans, hfold⟩ := steps_attrs hrest
    refine ⟨(nm, .mk (.Attr false) (v ++ ['\n']) []) :: ans, ?_, ?_⟩
    · intro p hp
      rcases List.mem_cons.mp hp with hp | hp
      · subst hp
        exact ⟨rfl, wfAttrNode_unquoted hnm hvne hv⟩
      · exact hans p hp
    · intro X nm0 k0 d0 ns0
      rw [List.cons_append, parseSteps_attrP, parse_attr_unquoted,
        show (BmlNode.mk k0 d0 ns0).append (nm, .mk (.Attr false) (v ++ ['\n']) [])
            = .mk k0 d0 (ns0 ++ [(nm, .mk (.Attr false) (v ++ ['\n']) [])]) from rfl,
        hfold X nm0 k0 d0 _]
      simp

theorem wfElems_of_all : ∀ (e : List (Text × BmlNode)),
    (∀ p ∈ e, wfElem p.1 p.2 = true) → wfElems e = true
  | [], _ => rfl
  | (nm, c) :: rest, h => by
    rw [wfElems, Bool.and_eq_true]
    exact ⟨h (nm, c) (List.mem_cons_self _ _),
      wfElems_of_all rest (fun p hp => h p (List.mem_cons_of_mem _ hp))⟩

theorem wfChildren_of_elems : ∀ (e : List (Text × BmlNode)),
    (∀ p ∈ e, isAttrNode p.2 = false ∧ wfElem p.1 p.2 = true) → wfChildren e = true
  | [], _ => rfl
  | (nm, c) :: rest, h => by
    rw [wfChildren]
    have h1 := h (nm, c) (List.mem_cons_self _ _)
    rw [if_neg (by rw [h1.1]; simp), Bool.and_eq_true]
    exact ⟨h1.2, wfElems_of_all rest (fun p hp => (h p (List.mem_cons_of_mem _ hp)).2)⟩

theorem wfChildren_attrs_elems : ∀ (a e : List (Text × BmlNode)),
    (∀ p ∈ a, isAttrNode p.2 = true ∧ wfAttrNode p.1 p.2 = true) →
    (∀ p ∈ e, isAttrNode p.2 = false ∧ wfElem p.1 p.2 = true) →
    wfChildren (a ++ e) = true
  | [], e, _, he => by
    rw [List.nil_append]
    exact wfChildren_of_elems e he
  | (nm, c) :: a2, e, ha, he => by
    rw [List.cons_append, wfChildren]
    have h1 := ha (nm, c) (List.mem_cons_self _ _)
    rw [if_pos h1.1, Bool.and_eq_true]
    exact ⟨h1.2, wfChildren_attrs_elems a2 e (fun p hp => ha p (List.mem_cons_of_mem _ hp)) he⟩

theorem sizeOf_append_right_le : ∀ (a b : List BmlProd), sizeOf b ≤ sizeOf (a ++ b)
  | [], b => Nat.le_refl _
  | x :: a2, b => by
    rw [List.cons_append]
    calc sizeOf b ≤ sizeOf (a2 ++ b) := sizeOf_append_right_le a2 b
    _ ≤ sizeOf (x :: (a2 ++ b)) := by simp

mutual

theorem steps_tail : ∀ {tail : List BmlProd}, EvtWFTail tail →
    ∀ (nm0 : Text) (k0 : BmlKind) (d0 : Text) (ns0 : List (Text × BmlNode)),
    ∃ (dls : List Text) (ns2 : List (Text × BmlNode)),
      parseSteps tail (nm0, .mk k0 d0 ns0)
        = (nm0, .mk k0 (d0 ++ joinLines dls) (ns0 ++ ns2)) ∧
      (∀ l ∈ dls, validLine l = true) ∧
      (∀ p ∈ ns2, isAttrNode p.2 = false ∧ wfElem p.1 p.2 = true)
  | _, .nil, nm0, k0, d0, ns0 =>
    ⟨[], [], by rw [parseSteps_nil]; simp [joinLines], by simp, by simp⟩
  | _, .data v rest hvv hrest, nm0, k0, d0, ns0 => by
    obtain ⟨dls, ns2, heq, hdls, hns2⟩ := steps_tail hrest nm0 k0 (d0 ++ (v ++ ['\n'])) ns0
    refine ⟨v :: dls, ns2, ?_, ?_, hns2⟩
    · rw [show dataEvt v = BmlProd.dataP [⟨false, v⟩] from rfl, parseSteps_dataP,
        show (BmlNode.mk k0 d0 ns0).pushData (dataInnerStr [⟨false, v⟩])
            = BmlNode.mk k0 (d0 ++ (v ++ ['\n'])) ns0 from by
          simp [BmlNode.pushData, dataInnerStr],
        heq, joinLines_cons]
      simp
    · intro l hl
      rcases List.mem_cons.mp hl with hl | hl
      · subst hl
        exact hvv
      · exact hdls l hl
  | _, .node p rest hp hrest, nm0, k0, d0, ns0 => by
    obtain ⟨inner, nmc, cc, hpe, hpn, hwfe, hattr⟩ := node_wf hp
    subst hpe
    obtain ⟨dls, ns2, heq, hdls, hns2⟩ := steps_tail hrest nm0 k0 d0 (ns0 ++ [(nmc, cc)])
    refine ⟨dls, (nmc, cc) :: ns2, ?_, hdls, ?_⟩
    · rw [parseSteps_nodeP, show parseSteps inner ([], BmlNode.elem) = (nmc, cc) from hpn,
        show (BmlNode.mk k0 d0 ns0).append (nmc, cc)
            = .mk k0 d0 (ns0 ++ [(nmc, cc)]) from rfl, heq]
      simp
    · intro q hq
      rcases List.mem_cons.mp hq with hq | hq
      · subst hq
        exact ⟨hattr, hwfe⟩
      · exact hns2 q hq
termination_by tail h nm0 k0 d0 ns0 => sizeOf tail
decreasing_by
  all_goals simp <;> omega

theorem node_wf : ∀ {p : BmlProd}, EvtWFNode p →
    ∃ (inner : List BmlProd) (nmc : Text) (cc : BmlNode),
      p = .nodeP inner ∧ parse_node inner = (nmc, cc) ∧ wfElem nmc cc = true ∧
      isAttrNode cc = false
  | _, .intro nm attrs tail hnm hattrs htail => by
    obtain ⟨ans, hans, hfold⟩ := steps_attrs hattrs
    obtain ⟨dls, ns2, heq, hdls, hns2⟩ := steps_tail htail nm .Elem [] ans
    refine ⟨.nameP nm :: (attrs ++ tail), nm, .mk .Elem (joinLines dls) (ans ++ ns2),
      rfl, ?_, ?_, rfl⟩
    · rw [show parse_node (.nameP nm :: (attrs ++ tail))
          = parseSteps (.nameP nm :: (attrs ++ tail)) ([], BmlNode.elem) from rfl,
        parseSteps_nameP, show BmlNode.elem = BmlNode.mk .Elem [] [] from rfl,
        hfold tail nm .Elem [] [], List.nil_append, heq]
      simp
    · rw [wfElem, hnm, wfData_joinLines hdls, wfChildren_attrs_elems ans ns2 hans hns2]
      rfl
termination_by p h => sizeOf p
decreasing_by
  have hle3 := sizeOf_append_right_le attrs tail
  simp at hle3 ⊢
  omega

end

theorem wfElems_append_one : ∀ (ns : List (Text × BmlNode)) (nm : Text) (c : BmlNode),
    wfElems ns = true → wfElem nm c = true → wfElems (ns ++ [(nm, c)]) = true
  | [], nm, c, _, hc => by
    rw [List.nil_append, wfElems, Bool.and_eq_true]
    exact ⟨hc, rfl⟩
  | (nm0, c0) :: rest, nm, c, h, hc => by
    rw [wfElems, Bool.and_eq_true] at h
    rw [List.cons_append, wfElems, Bool.and_eq_true]
    exact ⟨h.1, wfElems_append_one rest nm c h.2 hc⟩

theorem rootSteps_wf : ∀ {evts : List BmlProd}, EvtWFTail evts →
    ∀ ns0, wfElems ns0 = true →
    wfRoot (rootSteps evts (.mk (.Root BmlIndent.default) [] ns0)) = true
  | _, .nil, ns0, h => by
    rw [show rootSteps [] (BmlNode.mk (.Root BmlIndent.default) [] ns0)
        = .mk (.Root BmlIndent.default) [] ns0 from rfl, wfRoot]
    simp [h]
  | _, .data v rest _ hrest, ns0, h => by
    rw [show rootSteps (dataEvt v :: rest) (BmlNode.mk (.Root BmlIndent.default) [] ns0)
        = rootSteps rest (.mk (.Root BmlIndent.default) [] ns0) from rfl]
    exact rootSteps_wf hrest ns0 h
  | _, .node p rest hp hrest, ns0, h => by
    obtain ⟨inner, nmc, cc, hpe, hpn, hwfe, -⟩ := node_wf hp
    subst hpe
    rw [show rootSteps (BmlProd.nodeP inner :: rest)
          (BmlNode.mk (.Root BmlIndent.default) [] ns0)
        = rootSteps rest
            ((BmlNode.mk (.Root BmlIndent.default) [] ns0).append (parse_node inner))
      from rfl, hpn,
      show (BmlNode.mk (.Root BmlIndent.default) [] ns0).append (nmc, cc)
          = .mk (.Root BmlIndent.default) [] (ns0 ++ [(nmc, cc)]) from rfl]
    exact rootSteps_wf hrest _ (wfElems_append_one ns0 nmc cc h hwfe)

theorem try_from_wf {s : String} {A : BmlNode} : try_from s = .ok A → wfRoot A = true := by
  simp only [try_from]
  rcases hpp : pestParse s.toList with e | evts
  · intro h
    exact absurd h (by simp)
  · simp only []
    intro h
    rw [Except.ok.injEq] at h
    subst h
    have hwf : EvtWFTail evts := by
      revert hpp
      simp only [pestParse]
      rcases hlx : lexLines (toRawLines s.toList) with e | ls
      · intro h
        exact absurd h (by simp)
      · simp only []
        rcases hpi : parseItems (ls.length + 1) ls [] false with e | ⟨evts2, rem2⟩
        · intro h
          exact absurd h (by simp)
        · cases rem2 with
          | nil =>
            simp only []
            intro h
            rw [Except.ok.injEq] at h
            subst h
            have hlv : ∀ l ∈ ls, validLine l.txt = true :=
              lexLines_sound _ _ hlx (fun r hr => toRawLines_no_nl hr)
            exact (parseItems_sound _ _ _ _ _ _ hpi hlv).1
          | cons r rs =>
            simp only []
            intro h
            exact absurd h (by simp)
    rw [show BmlNode.root = BmlNode.mk (.Root BmlIndent.default) [] [] from rfl]
    exact rootSteps_wf hwf [] rfl

/-- Claim C1: every input string that parses via `try_from` into a tree `A`
round-trips — serializing `A` with the `Display`/`serialize` implementation
and re-parsing the rendered text yields a tree `B` with `A == B` under the
library's node equality (data and children; the rendered text need not be
byte-identical to the input). -/
theorem claim_C1_serialize_reparse_roundtrip (T : String) (A : BmlNode)
    (h : try_from T = .ok A) :
    ∃ B, try_from (displayString A) = .ok B ∧ BmlNode.beq A B = true :=
  ⟨A, try_from_display A (try_from_wf h), beq_refl A⟩

/-- Witness for C1: the tree parsed from `"a\n"` round-trips. -/
theorem claim_C1_witness :
    ∃ B, try_from (displayString (BmlNode.mk (.Root BmlIndent.default) []
        [(['a'], .mk .Elem [] [])])) = .ok B ∧
      BmlNode.beq (BmlNode.mk (.Root BmlIndent.default) [] [(['a'], .mk .Elem [] [])]) B
        = true :=
  claim_C1_serialize_reparse_roundtrip "a\n" _ (by
    simp [try_from, pestParse, lexLines, toRawLines, splitNlCore, stripCr, lexLine,
      parseItems, parseHeader, parseAttrs, parseOneAttr, nameChar, isWsChar, dataEvt,
      rootSteps, parse_node, parseSteps, BmlNode.root, BmlNode.elem, BmlNode.append])
